import Mathlib

/-!
Verification of the recurrence-rule engine of the go-task-scheduler
repository: the next-date calculator (`NextDate`, pkg/api/nextdate.go),
the rule validator (`checkRepeat`, pkg/api/addtask.go) and the date
normalizer (`checkDate`, pkg/api/addtask.go).

Dates are modelled by their day number (days since 1970-01-01).  The
conversions between day numbers and civil (year, month, day) triples
mirror the algorithms of Go's `time` package: `civilFromDays` follows
`time.absDate` (400-year / 100-year / 4-year / 1-year division cascade
with the `n -= n >> 2` caps, then the month estimate `day / 31` refined
against the cumulative `daysBefore` table), and `daysFromCivil` follows
the day computation of `time.Date` (days to January 1 of the year, plus
`daysBefore[month-1]`, plus a leap-day correction, plus `day - 1`).
Because the formula is linear in the day argument, out-of-range days
normalize exactly as `time.Date` does (February 29 of a non-leap year
rolls over to March 1).  Weekday numbering follows Go (`time.Weekday`:
0 = Sunday; day number 0 = 1970-01-01 was a Thursday = 4).

A moment (a `time.Time` value such as the `now` argument) is a day
number plus a time of day.  The unbounded `for` loops of the source are
embedded with an explicit fuel parameter, exhaustion being reported by
an error value that corresponds to no source error (`fuelExhausted`).
-/

namespace Scheduler

/-- Leap-year test (Go `isLeap`).  Go uses truncated `%`, but only
divisibility is tested, on which truncated and Euclidean `%` agree. -/
def isLeap (y : Int) : Bool :=
  y % 4 = 0 && (y % 100 ≠ 0 || y % 400 = 0)

/-- Arithmetic version of the leap bit, for use inside integer facts. -/
def leapN (y : Int) : Int :=
  if y % 4 = 0 ∧ (y % 100 ≠ 0 ∨ y % 400 = 0) then 1 else 0

/-- Days in a month (Go computes this as day 0 of the following month;
`lastDayGo` below is that computation, and they are proved equal). -/
def daysInMonth (y m : Int) : Int :=
  if m = 2 then 28 + leapN y
  else if m = 4 ∨ m = 6 ∨ m = 9 ∨ m = 11 then 30
  else 31

/-- Cumulative days before a month in a non-leap year (Go's
`daysBefore` table; our index is 1-based, `daysBeforeM (m+1)` is Go's
`daysBefore[m]`). -/
def daysBeforeM (m : Int) : Int :=
  if m ≤ 1 then 0
  else if m ≤ 2 then 31
  else if m ≤ 3 then 59
  else if m ≤ 4 then 90
  else if m ≤ 5 then 120
  else if m ≤ 6 then 151
  else if m ≤ 7 then 181
  else if m ≤ 8 then 212
  else if m ≤ 9 then 243
  else if m ≤ 10 then 273
  else if m ≤ 11 then 304
  else if m ≤ 12 then 334
  else 365

/-! Days from the absolute epoch (January 1 of year 1) to January 1 of a
year: the division cascade of Go's `daysSinceEpoch`. -/

/-- Number of full 400-year cycles before year `y`. -/
def yrA (y : Int) : Int := (y - 1) / 400

/-- Remaining years after the 400-year cycles, in [0, 399]. -/
def yrR1 (y : Int) : Int := (y - 1) - 400 * yrA y

/-- Number of full 100-year cycles in the remainder. -/
def yrB (y : Int) : Int := yrR1 y / 100

/-- Remaining years after the 100-year cycles. -/
def yrR2 (y : Int) : Int := yrR1 y - 100 * yrB y

/-- Number of full 4-year cycles in the remainder. -/
def yrC (y : Int) : Int := yrR2 y / 4

/-- Remaining years after the 4-year cycles, in [0, 3]. -/
def yrR3 (y : Int) : Int := yrR2 y - 4 * yrC y

/-- Days from January 1 of year 1 to January 1 of year `y` (Go
`daysSinceEpoch`). -/
def yrDays (y : Int) : Int :=
  146097 * yrA y + 36524 * yrB y + 1461 * yrC y + 365 * yrR3 y

/-- Day number of a civil date, relative to 1970-01-01 (the day part of
Go `time.Date`; 719162 days lie between the absolute epoch and the Unix
epoch).  Linear in `d`, hence Go's day-overflow normalization. -/
def daysFromCivil (y m d : Int) : Int :=
  yrDays y + daysBeforeM m + (if isLeap y = true ∧ 3 ≤ m then 1 else 0) + (d - 1) - 719162

/-! Day number back to the civil triple: Go's `absDate`. -/

/-- Days since the absolute epoch (January 1 of year 1). -/
def days0 (z : Int) : Int := z + 719162

/-- Number of 400-year cycles. -/
def n400 (z : Int) : Int := days0 z / 146097

/-- Day within the 400-year cycle, in [0, 146096]. -/
def r400 (z : Int) : Int := days0 z - 146097 * n400 z

/-- Raw century count (Go `n = d / 36524`). -/
def cRaw (z : Int) : Int := r400 z / 36524

/-- Century count capped at 3 (Go `n -= n >> 2`). -/
def cCap (z : Int) : Int := cRaw z - cRaw z / 4

/-- Day within the century. -/
def rC (z : Int) : Int := r400 z - 36524 * cCap z

/-- Number of 4-year cycles within the century. -/
def qQ (z : Int) : Int := rC z / 1461

/-- Day within the 4-year cycle, in [0, 1460]. -/
def rQ (z : Int) : Int := rC z - 1461 * qQ z

/-- Raw year count within the 4-year cycle (Go `n = d / 365`). -/
def tRaw (z : Int) : Int := rQ z / 365

/-- Year count capped at 3 (Go `n -= n >> 2`). -/
def tCap (z : Int) : Int := tRaw z - tRaw z / 4

/-- Day of the year, 0-based (Go `yday`). -/
def yday (z : Int) : Int := rQ z - 365 * tCap z

/-- Year of a day number (Go `Date().Year()`). -/
def yearOf (z : Int) : Int := 400 * n400 z + 100 * cCap z + 4 * qQ z + tCap z + 1

/-- Day of year adjusted for the leap day (Go `absDate`: `day--` once
past February 29). -/
def mdDay (L : Bool) (yd : Int) : Int :=
  if L = true ∧ 59 < yd then yd - 1 else yd

/-- Month and day of month from the leap bit and the 0-based day of the
year (the month-estimation part of Go `absDate`). -/
def mdm (L : Bool) (yd : Int) : Int × Int :=
  if L = true ∧ yd = 59 then (2, 29)
  else if daysBeforeM (mdDay L yd / 31 + 2) ≤ mdDay L yd then
    (mdDay L yd / 31 + 2, mdDay L yd - daysBeforeM (mdDay L yd / 31 + 2) + 1)
  else
    (mdDay L yd / 31 + 1, mdDay L yd - daysBeforeM (mdDay L yd / 31 + 1) + 1)

/-- Month of a day number (Go `Date().Month()`). -/
def monthOf (z : Int) : Int := (mdm (isLeap (yearOf z)) (yday z)).1

/-- Day of month of a day number (Go `Date().Day()`). -/
def dayOf (z : Int) : Int := (mdm (isLeap (yearOf z)) (yday z)).2

/-- Civil triple of a day number. -/
def civilFromDays (z : Int) : Int × Int × Int := (yearOf z, monthOf z, dayOf z)

/-- Go weekday of a day number (0 = Sunday; 1970-01-01 was a
Thursday). -/
def goWeekday (z : Int) : Int := (z + 4) % 7

/-- Go `time.Date` for a possibly out-of-range month: months are
normalized into [1, 12] with a year carry, days by overflow. -/
def goDate (y m d : Int) : Int :=
  daysFromCivil (y + (m - 1) / 12) ((m - 1) % 12 + 1) d

/-- Last day of month `m` of year `y`, computed as Go does:
`time.Date(y, m+1, 0, ...).Day()`. -/
def lastDayGo (y m : Int) : Int := dayOf (goDate y (m + 1) 0)

/-- One year forward as Go `AddDate(1, 0, 0)` computes it:
`time.Date(y+1, m, d, ...)` with day-overflow normalization. -/
def addYears (z : Int) : Int := goDate (yearOf z + 1) (monthOf z) (dayOf z)

/-! Arithmetic facts about the conversions. -/

theorem leapN_isLeap (y : Int) : isLeap y = true ↔ leapN y = 1 := by
  unfold isLeap leapN
  split <;> simp_all

theorem leapN_cases (y : Int) : leapN y = 0 ∨ leapN y = 1 := by
  unfold leapN
  split <;> omega

/-- Arithmetic core, forward direction: the division cascade of
`absDate`, applied to any day count `D`, yields a year `Y` and a day of
year `yd` with `yrDays Y + yd = D` and `yd` within the year length. -/
theorem cascade (D N R cR cC RC q RQ tR tC yd Y : Int)
    (hN : N = D / 146097) (hR : R = D - 146097 * N)
    (hcR : cR = R / 36524) (hcC : cC = cR - cR / 4)
    (hRC : RC = R - 36524 * cC)
    (hq : q = RC / 1461) (hRQ : RQ = RC - 1461 * q)
    (htR : tR = RQ / 365) (htC : tC = tR - tR / 4)
    (hyd : yd = RQ - 365 * tC)
    (hY : Y = 400 * N + 100 * cC + 4 * q + tC + 1) :
    yrDays Y + yd = D ∧ 0 ≤ yd ∧ yd ≤ 364 + leapN Y := by
  have e1 : 0 ≤ R ∧ R ≤ 146096 := by omega
  have e2 : 0 ≤ cR ∧ cR ≤ 4 ∧ (cR ≤ 3 → cC = cR) ∧ (cR = 4 → cC = 3 ∧ R = 146096) := by
    omega
  have e3 : 0 ≤ RC ∧ RC ≤ 36524 ∧ (RC = 36524 → R = 146096 ∧ cC = 3) := by omega
  have e4 : 0 ≤ q ∧ q ≤ 24 ∧ 0 ≤ RQ ∧ RQ ≤ 1460 ∧ (RQ = 1460 ∧ q = 24 → RC = 36524) := by
    omega
  have e5 : 0 ≤ tC ∧ tC ≤ 3 ∧ 0 ≤ yd ∧ yd ≤ 365 ∧ (yd = 365 → tC = 3 ∧ RQ = 1460) := by
    omega
  have e6 : 0 ≤ 100 * cC + 4 * q + tC ∧ 100 * cC + 4 * q + tC ≤ 399 := by omega
  have g1 : yrA Y = N := by
    unfold yrA
    omega
  have g2 : yrR1 Y = 100 * cC + 4 * q + tC := by
    unfold yrR1
    rw [g1]
    omega
  have g3 : yrB Y = cC := by
    unfold yrB
    rw [g2]
    omega
  have g4 : yrR2 Y = 4 * q + tC := by
    unfold yrR2
    rw [g2, g3]
    omega
  have g5 : yrC Y = q := by
    unfold yrC
    rw [g4]
    omega
  have g6 : yrR3 Y = tC := by
    unfold yrR3
    rw [g4, g5]
    omega
  have hyr : yrDays Y = 146097 * N + 36524 * cC + 1461 * q + 365 * tC := by
    unfold yrDays
    rw [g1, g3, g5, g6]
  refine ⟨by omega, by omega, ?_⟩
  by_cases hy365 : yd = 365
  · have h1 := e5.2.2.2.2 hy365
    have hleap : leapN Y = 1 := by
      unfold leapN
      split
      · rfl
      · exfalso
        by_cases hq24 : q = 24
        · have h2 := e3.2.2 (by omega)
          omega
        · omega
    omega
  · have := leapN_cases Y
    omega

/-- Arithmetic core, backward direction: on inputs of the shape
`yrDays y + r` with `r` inside year `y`, the cascade recovers exactly
`y` and `r`. -/
theorem cascade2 (y r D N R cR cC RC q RQ tR tC yd Y : Int)
    (hD : D = yrDays y + r) (hr0 : 0 ≤ r) (hr1 : r ≤ 364 + leapN y)
    (hN : N = D / 146097) (hR : R = D - 146097 * N)
    (hcR : cR = R / 36524) (hcC : cC = cR - cR / 4)
    (hRC : RC = R - 36524 * cC)
    (hq : q = RC / 1461) (hRQ : RQ = RC - 1461 * q)
    (htR : tR = RQ / 365) (htC : tC = tR - tR / 4)
    (hyd : yd = RQ - 365 * tC)
    (hY : Y = 400 * N + 100 * cC + 4 * q + tC + 1) :
    Y = y ∧ yd = r := by
  have hyr : yrDays y = 146097 * yrA y + 36524 * yrB y + 1461 * yrC y + 365 * yrR3 y := rfl
  have h1 : y - 1 = 400 * yrA y + yrR1 y ∧ 0 ≤ yrR1 y ∧ yrR1 y ≤ 399 := by
    unfold yrR1 yrA
    omega
  have h2 : yrR1 y = 100 * yrB y + yrR2 y ∧ 0 ≤ yrR2 y ∧ yrR2 y ≤ 99 ∧
      0 ≤ yrB y ∧ yrB y ≤ 3 := by
    unfold yrR2 yrB
    omega
  have h3 : yrR2 y = 4 * yrC y + yrR3 y ∧ 0 ≤ yrR3 y ∧ yrR3 y ≤ 3 ∧
      0 ≤ yrC y ∧ yrC y ≤ 24 := by
    unfold yrR3 yrC
    omega
  have hleap : leapN y = 1 ↔ (yrR3 y = 3 ∧ (yrC y ≠ 24 ∨ yrB y = 3)) := by
    unfold leapN
    split <;> omega
  have hl01 := leapN_cases y
  have hr365 : r ≤ 365 := by omega
  have c0 : D = 146097 * yrA y + (36524 * yrB y + 1461 * yrC y + 365 * yrR3 y + r) := by
    rw [hD, hyr]
    ring
  have c1 : N = yrA y := by omega
  have c1R : R = 36524 * yrB y + 1461 * yrC y + 365 * yrR3 y + r := by omega
  have cB3 : 1461 * yrC y + 365 * yrR3 y + r = 36524 → yrB y = 3 := by omega
  have c2cr : (1461 * yrC y + 365 * yrR3 y + r ≤ 36523 → cR = yrB y) ∧
      (1461 * yrC y + 365 * yrR3 y + r = 36524 → cR = yrB y + 1) := by omega
  have c2 : cC = yrB y := by omega
  have c2R : RC = 1461 * yrC y + 365 * yrR3 y + r := by omega
  have c3 : q = yrC y ∧ RQ = 365 * yrR3 y + r := by omega
  have c4a : tR = yrR3 y ∨ (r = 365 ∧ tR = 4 ∧ yrR3 y = 3) := by omega
  have c4 : tC = yrR3 y ∧ yd = r := by omega
  exact ⟨by omega, c4.2⟩

/-- The year/day-of-year pair computed by `absDate` decomposes the day
count exactly: `yrDays (yearOf z) + yday z = days0 z`, with the day of
year inside the year. -/
theorem year_decomp (z : Int) :
    yrDays (yearOf z) + yday z = days0 z ∧ 0 ≤ yday z ∧
    yday z ≤ 364 + leapN (yearOf z) :=
  cascade (days0 z) (n400 z) (r400 z) (cRaw z) (cCap z) (rC z) (qQ z) (rQ z)
    (tRaw z) (tCap z) (yday z) (yearOf z)
    rfl rfl rfl rfl rfl rfl rfl rfl rfl rfl rfl

/-- Uniqueness of the decomposition: a day count written as
`yrDays y + r` with `r` inside year `y` has year `y` and day of year
`r`. -/
theorem year_unique (y r : Int) (hr0 : 0 ≤ r) (hr1 : r ≤ 364 + leapN y) :
    yearOf (yrDays y + r - 719162) = y ∧ yday (yrDays y + r - 719162) = r := by
  have h := cascade2 y r (days0 (yrDays y + r - 719162)) (n400 (yrDays y + r - 719162))
    (r400 (yrDays y + r - 719162)) (cRaw (yrDays y + r - 719162))
    (cCap (yrDays y + r - 719162)) (rC (yrDays y + r - 719162))
    (qQ (yrDays y + r - 719162)) (rQ (yrDays y + r - 719162))
    (tRaw (yrDays y + r - 719162)) (tCap (yrDays y + r - 719162))
    (yday (yrDays y + r - 719162)) (yearOf (yrDays y + r - 719162))
    (by unfold days0; omega) hr0 hr1
    rfl rfl rfl rfl rfl rfl rfl rfl rfl rfl rfl
  exact h

set_option maxRecDepth 4000 in
/-- Month extraction inverts the cumulative-days table: checked for
every day of year of a non-leap year. -/
theorem mdm_rt_false : ∀ n : Nat, n < 365 →
    daysBeforeM (mdm false (n : Int)).1 +
      (mdm false (n : Int)).2 - 1 = (n : Int) := by
  decide

set_option maxRecDepth 4000 in
/-- Month extraction inverts the cumulative-days table: checked for
every day of year of a leap year (with the February 29 correction). -/
theorem mdm_rt_true : ∀ n : Nat, n < 366 →
    daysBeforeM (mdm true (n : Int)).1 +
      (if 3 ≤ (mdm true (n : Int)).1 then 1 else 0) +
      (mdm true (n : Int)).2 - 1 = (n : Int) := by
  decide

set_option maxRecDepth 4000 in
/-- Bounds of the extracted month and day, checked for every day of
year of a non-leap year. -/
theorem mdm_valid_false : ∀ n : Nat, n < 365 →
    1 ≤ (mdm false (n : Int)).1 ∧ (mdm false (n : Int)).1 ≤ 12 ∧
    1 ≤ (mdm false (n : Int)).2 ∧ (mdm false (n : Int)).2 ≤ 31 := by
  decide

set_option maxRecDepth 4000 in
/-- Bounds of the extracted month and day, checked for every day of
year of a leap year. -/
theorem mdm_valid_true : ∀ n : Nat, n < 366 →
    1 ≤ (mdm true (n : Int)).1 ∧ (mdm true (n : Int)).1 ≤ 12 ∧
    1 ≤ (mdm true (n : Int)).2 ∧ (mdm true (n : Int)).2 ≤ 31 := by
  decide

/-- `daysFromCivil` with the leap correction written through `leapN`. -/
theorem daysFromCivil_expand (y m d : Int) :
    daysFromCivil y m d =
      yrDays y + daysBeforeM m + (if 3 ≤ m then leapN y else 0) + d - 1 - 719162 := by
  have h1 := leapN_isLeap y
  have h2 := leapN_cases y
  unfold daysFromCivil
  by_cases h3 : 3 ≤ m
  · by_cases h4 : isLeap y = true
    · have h5 : leapN y = 1 := h1.1 h4
      rw [if_pos ⟨h4, h3⟩, if_pos h3, h5]
      omega
    · have h5 : leapN y = 0 := by
        rcases h2 with h | h
        · exact h
        · exact absurd (h1.2 h) h4
      rw [if_neg (fun hc => h4 hc.1), if_pos h3, h5]
      omega
  · rw [if_neg (fun hc => h3 hc.2), if_neg h3]
    omega

/-- Round trip: converting a day number to its civil triple and back is
the identity (`time.Date` applied to the `Date()` components). -/
theorem rt1 (z : Int) : daysFromCivil (yearOf z) (monthOf z) (dayOf z) = z := by
  have hy := year_decomp z
  have h1 := leapN_isLeap (yearOf z)
  have h2 := leapN_cases (yearOf z)
  rw [daysFromCivil_expand]
  unfold monthOf dayOf
  rcases h2 with h2 | h2
  · have h4 : isLeap (yearOf z) = false := by
      cases hbl : isLeap (yearOf z)
      · rfl
      · exact absurd (h1.1 hbl) (by omega)
    rw [h4] at *
    have h0 : 0 ≤ yday z := hy.2.1
    have h365 : yday z < 365 := by omega
    have := mdm_rt_false (yday z).toNat (by omega)
    have hc : ((yday z).toNat : Int) = yday z := by omega
    rw [hc] at this
    have hub := mdm_valid_false (yday z).toNat (by omega)
    rw [hc] at hub
    unfold days0 at hy
    by_cases h3 : 3 ≤ (mdm false (yday z)).1
    · rw [if_pos h3]
      omega
    · rw [if_neg h3]
      omega
  · have h4 : isLeap (yearOf z) = true := h1.2 h2
    rw [h4] at *
    have h0 : 0 ≤ yday z := hy.2.1
    have h365 : yday z < 366 := by omega
    have := mdm_rt_true (yday z).toNat (by omega)
    have hc : ((yday z).toNat : Int) = yday z := by omega
    rw [hc] at this
    unfold days0 at hy
    omega

/-- Bounds of the month and day components of any day number. -/
theorem month_day_bounds (z : Int) :
    1 ≤ monthOf z ∧ monthOf z ≤ 12 ∧ 1 ≤ dayOf z ∧ dayOf z ≤ 31 := by
  have hy := year_decomp z
  have h1 := leapN_isLeap (yearOf z)
  have h2 := leapN_cases (yearOf z)
  have h0 : 0 ≤ yday z := hy.2.1
  have hc : ((yday z).toNat : Int) = yday z := by omega
  unfold monthOf dayOf
  rcases h2 with h2 | h2
  · have h4 : isLeap (yearOf z) = false := by
      cases hbl : isLeap (yearOf z)
      · rfl
      · exact absurd (h1.1 hbl) (by omega)
    rw [h4]
    have h := mdm_valid_false (yday z).toNat (by omega)
    rw [hc] at h
    exact h
  · have h4 : isLeap (yearOf z) = true := h1.2 h2
    rw [h4]
    have h := mdm_valid_true (yday z).toNat (by omega)
    rw [hc] at h
    exact h

/-- One more year adds the length of year `y`. -/
theorem yrDays_succ (y : Int) : yrDays (y + 1) = yrDays y + 365 + leapN y := by
  have h1 : y - 1 = 400 * yrA y + yrR1 y ∧ 0 ≤ yrR1 y ∧ yrR1 y ≤ 399 := by
    unfold yrR1 yrA
    omega
  have h2 : yrR1 y = 100 * yrB y + yrR2 y ∧ 0 ≤ yrR2 y ∧ yrR2 y ≤ 99 ∧
      0 ≤ yrB y ∧ yrB y ≤ 3 := by
    unfold yrR2 yrB
    omega
  have h3 : yrR2 y = 4 * yrC y + yrR3 y ∧ 0 ≤ yrR3 y ∧ yrR3 y ≤ 3 ∧
      0 ≤ yrC y ∧ yrC y ≤ 24 := by
    unfold yrR3 yrC
    omega
  have hleap : leapN y = 1 ↔ (yrR3 y = 3 ∧ (yrC y ≠ 24 ∨ yrB y = 3)) := by
    unfold leapN
    split <;> omega
  have hl01 := leapN_cases y
  have g1 : y + 1 - 1 = 400 * yrA (y + 1) + yrR1 (y + 1) ∧ 0 ≤ yrR1 (y + 1) ∧
      yrR1 (y + 1) ≤ 399 := by
    unfold yrR1 yrA
    omega
  have g2 : yrR1 (y + 1) = 100 * yrB (y + 1) + yrR2 (y + 1) ∧ 0 ≤ yrR2 (y + 1) ∧
      yrR2 (y + 1) ≤ 99 ∧ 0 ≤ yrB (y + 1) ∧ yrB (y + 1) ≤ 3 := by
    unfold yrR2 yrB
    omega
  have g3 : yrR2 (y + 1) = 4 * yrC (y + 1) + yrR3 (y + 1) ∧ 0 ≤ yrR3 (y + 1) ∧
      yrR3 (y + 1) ≤ 3 ∧ 0 ≤ yrC (y + 1) ∧ yrC (y + 1) ≤ 24 := by
    unfold yrR3 yrC
    omega
  unfold yrDays
  omega

/-- Four hundred more years add a full cycle of 146097 days. -/
theorem yrDays_400 (y : Int) : yrDays (y + 400) = yrDays y + 146097 := by
  have h1 : y - 1 = 400 * yrA y + yrR1 y ∧ 0 ≤ yrR1 y ∧ yrR1 y ≤ 399 := by
    unfold yrR1 yrA
    omega
  have g1 : y + 400 - 1 = 400 * yrA (y + 400) + yrR1 (y + 400) ∧ 0 ≤ yrR1 (y + 400) ∧
      yrR1 (y + 400) ≤ 399 := by
    unfold yrR1 yrA
    omega
  have h4 : yrA (y + 400) = yrA y + 1 ∧ yrR1 (y + 400) = yrR1 y := by omega
  have h5 : yrB (y + 400) = yrB y := by
    unfold yrB
    rw [h4.2]
  have h6 : yrR2 (y + 400) = yrR2 y := by
    unfold yrR2
    rw [h4.2, h5]
  have h7 : yrC (y + 400) = yrC y := by
    unfold yrC
    rw [h6]
  have h8 : yrR3 (y + 400) = yrR3 y := by
    unfold yrR3
    rw [h6, h7]
  unfold yrDays
  rw [h4.1, h5, h7, h8]
  ring

/-- The leap pattern repeats every 400 years. -/
theorem leapN_400 (y : Int) : leapN (y + 400) = leapN y := by
  unfold leapN
  have h4 : (y + 400) % 4 = y % 4 := by omega
  have h100 : (y + 400) % 100 = y % 100 := by omega
  have h400 : (y + 400) % 400 = y % 400 := by omega
  rw [h4, h100, h400]

/-- `time.Date` does not normalize months already in range. -/
theorem goDate_norm (y m d : Int) (h1 : 1 ≤ m) (h2 : m ≤ 12) :
    goDate y m d = daysFromCivil y m d := by
  unfold goDate
  have e1 : (m - 1) / 12 = 0 := by omega
  have e2 : (m - 1) % 12 = m - 1 := by omega
  rw [e1, e2]
  norm_num

/-- Day-of-month extraction at an offset `r` inside year `y`. -/
theorem lastDay_core (y r : Int) (h0 : 0 ≤ r) (h1 : r ≤ 364 + leapN y) :
    dayOf (yrDays y + r - 719162) = (mdm (isLeap y) r).2 := by
  have h := year_unique y r h0 h1
  unfold dayOf
  rw [h.1, h.2]

/-- Leap-bit version of the month-length table. -/
def dimL (L : Bool) (m : Int) : Int :=
  if m = 2 then (if L = true then 29 else 28)
  else if m = 4 ∨ m = 6 ∨ m = 9 ∨ m = 11 then 30
  else 31

theorem daysInMonth_dimL (y m : Int) : daysInMonth y m = dimL (isLeap y) m := by
  have h1 := leapN_isLeap y
  have h2 := leapN_cases y
  have hbit : (if isLeap y = true then (29:Int) else 28) = 28 + leapN y := by
    rcases h2 with h2 | h2
    · have h4 : isLeap y = false := by
        cases hbl : isLeap y
        · rfl
        · exact absurd (h1.1 hbl) (by omega)
      rw [h4, h2]
      decide
    · rw [h1.2 h2, h2]
      decide
  unfold daysInMonth dimL
  rw [hbit]

set_option maxRecDepth 8000 in
/-- The month extraction is a left inverse of the cumulative table on
valid (month, day) pairs, checked for all months, days and leap
bits. -/
theorem mdm_left (L : Bool) : ∀ mn : Nat, mn < 12 → ∀ dn : Nat, dn < 31 →
    (dn : Int) + 1 ≤ dimL L ((mn : Int) + 1) →
    mdm L (daysBeforeM ((mn : Int) + 1) +
        (if L = true ∧ 3 ≤ (mn : Int) + 1 then 1 else 0) + ((dn : Int) + 1) - 1) =
      ((mn : Int) + 1, (dn : Int) + 1) := by
  cases L <;> decide

/-- Table bound: days before a month plus that month's length stay
inside the year. -/
theorem daysBeforeM_dim_bound (L : Bool) (m : Int) (h1 : 1 ≤ m) (h2 : m ≤ 12) :
    0 ≤ daysBeforeM m ∧
    daysBeforeM m + (if L = true ∧ 3 ≤ m then 1 else 0) + dimL L m ≤
      365 + (if L = true then 1 else 0) := by
  cases L <;> interval_cases m <;> decide

/-- Full round trip on valid civil dates: `Date()` returns exactly the
triple that `time.Date` was given. -/
theorem rt3 (y m d : Int) (hm1 : 1 ≤ m) (hm2 : m ≤ 12) (hd1 : 1 ≤ d)
    (hd2 : d ≤ daysInMonth y m) :
    yearOf (daysFromCivil y m d) = y ∧ monthOf (daysFromCivil y m d) = m ∧
      dayOf (daysFromCivil y m d) = d := by
  have h1 := leapN_isLeap y
  have h2 := leapN_cases y
  have hdim := daysInMonth_dimL y m
  have hbit : (if isLeap y = true then (1:Int) else 0) = leapN y := by
    rcases h2 with h2 | h2
    · have h4 : isLeap y = false := by
        cases hbl : isLeap y
        · rfl
        · exact absurd (h1.1 hbl) (by omega)
      rw [h4, h2]
      decide
    · rw [h1.2 h2, h2]
      decide
  obtain ⟨hbd1, hbd2⟩ := daysBeforeM_dim_bound (isLeap y) m hm1 hm2
  rw [hbit] at hbd2
  have hd2' : d ≤ dimL (isLeap y) m := by
    rw [hdim] at hd2
    exact hd2
  have hdim31 : 1 ≤ dimL (isLeap y) m ∧ dimL (isLeap y) m ≤ 31 := by
    unfold dimL
    split_ifs <;> omega
  have hif : 0 ≤ (if isLeap y = true ∧ 3 ≤ m then (1:Int) else 0) := by
    split_ifs <;> omega
  have hr0 : 0 ≤ daysBeforeM m + (if isLeap y = true ∧ 3 ≤ m then (1:Int) else 0) + d - 1 := by
    omega
  have hr1 : daysBeforeM m + (if isLeap y = true ∧ 3 ≤ m then (1:Int) else 0) + d - 1 ≤
      364 + leapN y := by
    omega
  have harg : daysFromCivil y m d =
      yrDays y + (daysBeforeM m + (if isLeap y = true ∧ 3 ≤ m then (1:Int) else 0) + d - 1) -
        719162 := by
    unfold daysFromCivil
    omega
  have hu := year_unique y _ hr0 hr1
  rw [harg]
  refine ⟨hu.1, ?_, ?_⟩
  · unfold monthOf
    rw [hu.1, hu.2]
    have hml := mdm_left (isLeap y) (m - 1).toNat (by omega) (d - 1).toNat (by omega)
    have hcm : ((m - 1).toNat : Int) + 1 = m := by omega
    have hcd : ((d - 1).toNat : Int) + 1 = d := by omega
    rw [hcm, hcd] at hml
    rw [hml (by rw [hdim] at hd2; omega)]
  · unfold dayOf
    rw [hu.1, hu.2]
    have hml := mdm_left (isLeap y) (m - 1).toNat (by omega) (d - 1).toNat (by omega)
    have hcm : ((m - 1).toNat : Int) + 1 = m := by omega
    have hcd : ((d - 1).toNat : Int) + 1 = d := by omega
    rw [hcm, hcd] at hml
    rw [hml (by rw [hdim] at hd2; omega)]

/-- Go's last-day computation (`time.Date(y, m+1, 0).Day()`) equals the
month-length table. -/
theorem lastDayGo_eq (y m : Int) (h1 : 1 ≤ m) (h2 : m ≤ 12) :
    lastDayGo y m = daysInMonth y m := by
  have hli := leapN_isLeap y
  have hlc := leapN_cases y
  have hdim := daysInMonth_dimL y m
  unfold lastDayGo
  by_cases hm12 : m = 12
  · subst hm12
    have hg : goDate y (12 + 1) 0 = daysFromCivil (y + 1) 1 0 := by
      unfold goDate
      rw [show ((12:Int) + 1 - 1) / 12 = 1 from by decide,
        show ((12:Int) + 1 - 1) % 12 + 1 = 1 from by decide]
    have harg : daysFromCivil (y + 1) 1 0 = yrDays y + (364 + leapN y) - 719162 := by
      rw [daysFromCivil_expand, yrDays_succ y]
      rw [if_neg (by norm_num)]
      have hdb : daysBeforeM 1 = 0 := by decide
      omega
    rw [hg, harg, lastDay_core y (364 + leapN y) (by omega) (by omega)]
    rcases hlc with h | h
    · have h4 : isLeap y = false := by
        cases hbl : isLeap y
        · rfl
        · exact absurd (hli.1 hbl) (by omega)
      rw [h4, h, hdim, h4]
      decide
    · rw [hli.2 h, h, hdim, hli.2 h]
      decide
  · have hg : goDate y (m + 1) 0 = daysFromCivil y (m + 1) 0 :=
      goDate_norm y (m + 1) 0 (by omega) (by omega)
    have hm11 : m ≤ 11 := by omega
    have hdb : 31 ≤ daysBeforeM (m + 1) ∧ daysBeforeM (m + 1) ≤ 334 := by
      interval_cases m <;> decide
    have harg : daysFromCivil y (m + 1) 0 =
        yrDays y + (daysBeforeM (m + 1) + (if 3 ≤ m + 1 then leapN y else 0) - 1) -
          719162 := by
      rw [daysFromCivil_expand]
      omega
    have hb1 : 0 ≤ daysBeforeM (m + 1) + (if 3 ≤ m + 1 then leapN y else 0) - 1 := by
      split_ifs <;> omega
    have hb2 : daysBeforeM (m + 1) + (if 3 ≤ m + 1 then leapN y else 0) - 1 ≤
        364 + leapN y := by
      split_ifs <;> omega
    rw [hg, harg, lastDay_core y _ hb1 hb2, hdim]
    rcases hlc with h | h
    · have h4 : isLeap y = false := by
        cases hbl : isLeap y
        · rfl
        · exact absurd (hli.1 hbl) (by omega)
      rw [h4, h]
      interval_cases m <;> decide
    · rw [hli.2 h, h]
      interval_cases m <;> decide

/-- The civil calendar repeats with period 146097 days / 400 years. -/
theorem daysFromCivil_400 (y m d : Int) :
    daysFromCivil (y + 400) m d = daysFromCivil y m d + 146097 := by
  rw [daysFromCivil_expand, daysFromCivil_expand, yrDays_400, leapN_400]
  omega

theorem daysInMonth_400 (y m : Int) : daysInMonth (y + 400) m = daysInMonth y m := by
  unfold daysInMonth
  rw [leapN_400]

/-- `AddDate(1, 0, 0)` moves strictly forward (by 364 to 367 days). -/
theorem addYears_gt (z : Int) : z < addYears z := by
  have hm := month_day_bounds z
  have hrt := rt1 z
  have hsucc := yrDays_succ (yearOf z)
  have hl1 := leapN_cases (yearOf z)
  have hl2 := leapN_cases (yearOf z + 1)
  unfold addYears
  rw [goDate_norm _ _ _ hm.1 hm.2.1]
  rw [daysFromCivil_expand] at *
  by_cases h3 : 3 ≤ monthOf z
  · rw [if_pos h3] at *
    omega
  · rw [if_neg h3] at *
    omega

/-! The program embedding: tokenization, number and date parsing, the
rule loops of `NextDate`, the validator `checkRepeat` and the
normalizer `checkDate`. -/

/-- Split a character list at every separator satisfying `p`, keeping
empty fields (the semantics of Go `strings.Split` with a one-character
separator). -/
def splitPred (p : Char → Bool) : List Char → List (List Char)
  | [] => [[]]
  | a :: t =>
    if p a then [] :: splitPred p t
    else
      match splitPred p t with
      | [] => [[a]]
      | h :: t2 => (a :: h) :: t2

/-- Go `strings.Split(s, sep)` for a one-character separator. -/
def splitOnChar (c : Char) (l : List Char) : List (List Char) :=
  splitPred (fun a => a = c) l

/-- Go `strings.Fields`: split on whitespace runs, dropping empty
fields. -/
def goFields (s : String) : List (List Char) :=
  (splitPred (fun c => c.isWhitespace) s.data).filter (fun t => ¬t = [])

/-- Accumulate decimal digits (Go `strconv.Atoi`, digit loop). -/
def digitsValAux : Nat → List Char → Option Nat
  | acc, [] => some acc
  | acc, c :: t =>
    if c.isDigit then digitsValAux (acc * 10 + (c.toNat - 48)) t else none

/-- Value of a non-empty all-digit character list. -/
def digitsVal (l : List Char) : Option Nat :=
  if l = [] then none else digitsValAux 0 l

/-- Go `strconv.Atoi`: optional sign, decimal digits, 64-bit range. -/
def atoi (l : List Char) : Option Int :=
  match l with
  | '+' :: t =>
    (digitsVal t).bind fun n =>
      if (n : Int) ≤ 9223372036854775807 then some (n : Int) else none
  | '-' :: t =>
    (digitsVal t).bind fun n =>
      if (n : Int) ≤ 9223372036854775808 then some (-(n : Int)) else none
  | t =>
    (digitsVal t).bind fun n =>
      if (n : Int) ≤ 9223372036854775807 then some (n : Int) else none

/-- Numeric value of a digit character. -/
def digVal (c : Char) : Int := (c.toNat : Int) - 48

/-- Go `time.Parse("20060102", s)`: exactly eight digits, month in
[1, 12], day valid for the month; the result is the day number. -/
def parseDate (s : String) : Option Int :=
  match s.data with
  | [y1, y2, y3, y4, m1, m2, d1, d2] =>
    if y1.isDigit && y2.isDigit && y3.isDigit && y4.isDigit &&
        m1.isDigit && m2.isDigit && d1.isDigit && d2.isDigit then
      let y := 1000 * digVal y1 + 100 * digVal y2 + 10 * digVal y3 + digVal y4
      let m := 10 * digVal m1 + digVal m2
      let d := 10 * digVal d1 + digVal d2
      if 1 ≤ m ∧ m ≤ 12 ∧ 1 ≤ d ∧ d ≤ daysInMonth y m then
        some (daysFromCivil y m d)
      else none
    else none
  | _ => none

/-- Left-pad a natural number with zeros to a given width. -/
def padNat (w : Nat) (n : Nat) : String :=
  (List.replicate (w - (toString n).length) '0').asString ++ toString n

/-- Go's fixed-width integer formatting (`appendInt`). -/
def padInt (w : Nat) (n : Int) : String :=
  if n < 0 then "-" ++ padNat w n.natAbs else padNat w n.toNat

/-- Go `Format("20060102")` of a day number. -/
def formatDate (z : Int) : String :=
  padInt 4 (yearOf z) ++ padInt 2 (monthOf z) ++ padInt 2 (dayOf z)

/-- A `time.Time` moment: a calendar day plus a time of day (seconds,
always in [0, 86400)). -/
structure Moment where
  day : Int
  tod : Int
  tod_nonneg : 0 ≤ tod
  tod_lt : tod < 86400

/-- Source `afterNow`: both instants truncated to midnight, then
`!date.Before(now)`, i.e. date ≥ now by calendar day. -/
def afterNow (z : Int) (now : Moment) : Bool := !decide (z < now.day)

/-- Go `date.After(now)` where `date` is the midnight instant of day
`z`: full-moment (seconds) comparison. -/
def timeAfter (z : Int) (now : Moment) : Bool :=
  decide (now.day * 86400 + now.tod < z * 86400)

/-- The shape shared by all four `for` loops of `NextDate`: step first,
then test, repeating until the test passes; the fuel argument makes the
unbounded source loop a total function, `none` meaning that the loop
was still running after `fuel` steps. -/
def iterLoop (step : Int → Int) (p : Int → Bool) : Nat → Int → Option Int
  | 0, _ => none
  | fuel + 1, z =>
    if p (step z) then some (step z) else iterLoop step p fuel (step z)

/-- Weekday list parsing of the `w` rule: each comma-separated element
must be an integer in [1, 7]. -/
def parseWeekdays : List (List Char) → Option (List Int)
  | [] => some []
  | s :: t =>
    match atoi s with
    | none => none
    | some n =>
      if n < 1 ∨ 7 < n then none
      else (parseWeekdays t).map fun l => n :: l

/-- Day list parsing of the `m` rule: collects the day flags and the
`-1` / `-2` markers, rejecting anything outside {-2, -1} ∪ [1, 31]. -/
def parseMonthDays : List (List Char) → Option (List Int × Bool × Bool)
  | [] => some ([], false, false)
  | s :: t =>
    match atoi s with
    | none => none
    | some n =>
      (parseMonthDays t).bind fun r =>
        if n = -1 then some (r.1, true, r.2.2)
        else if n = -2 then some (r.1, r.2.1, true)
        else if 1 ≤ n ∧ n ≤ 31 then some (n :: r.1, r.2.1, r.2.2)
        else none

/-- Month list parsing of the `m` rule: each element in [1, 12]. -/
def parseMonths : List (List Char) → Option (List Int)
  | [] => some []
  | s :: t =>
    match atoi s with
    | none => none
    | some n =>
      if n < 1 ∨ 12 < n then none
      else (parseMonths t).map fun l => n :: l

/-- Month selection of the `m` rule: a month list is parsed only when
the rule has exactly three tokens (Go: `if len(parts) == 3`),
otherwise every month is allowed (`none`). -/
def monthsSel (rest2 : List (List Char)) : Option (Option (List Int)) :=
  match rest2 with
  | [p2] => (parseMonths (splitOnChar ',' p2)).map some
  | _ => some none

/-- Go `monthFlags[month]` (all twelve flags set when no list was
given). -/
def monthOk (msel : Option (List Int)) (m : Int) : Bool :=
  match msel with
  | none => true
  | some l => l.contains m

/-- Go's `isMatch`: the day flags, or the last day of the month when
`-1` was given, or the second-to-last day when `-2` was given. -/
def monthMatch (ds : List Int) (m1 m2 : Bool) (z : Int) : Bool :=
  ds.contains (dayOf z) ||
  (m1 && decide (dayOf z = lastDayGo (yearOf z) (monthOf z))) ||
  (m2 && decide (dayOf z = lastDayGo (yearOf z) (monthOf z) - 1))

deriving instance DecidableEq for Except

/-- Error outcomes of `NextDate`; `fuelExhausted` corresponds to no
source error, it reports that the embedded loop was cut off. -/
inductive NdError where
  | emptyRule
  | invalidStartDate
  | missingParam
  | invalidParam
  | unsupportedKind
  | fuelExhausted
deriving DecidableEq

/-- The `d` branch of `NextDate`. -/
def nextD (fuel : Nat) (now : Moment) (date : Int) :
    List (List Char) → Except NdError String
  | [] => .error .missingParam
  | p1 :: _ =>
    match atoi p1 with
    | none => .error .invalidParam
    | some days =>
      if days ≤ 0 ∨ 400 < days then .error .invalidParam
      else
        match iterLoop (fun z => z + days) (fun z => afterNow z now) fuel date with
        | none => .error .fuelExhausted
        | some r => .ok (formatDate r)

/-- The `y` branch of `NextDate`. -/
def nextY (fuel : Nat) (now : Moment) (date : Int) : Except NdError String :=
  match iterLoop addYears (fun z => afterNow z now) fuel date with
  | none => .error .fuelExhausted
  | some r => .ok (formatDate r)

/-- Go weekday folded to ISO numbering: `int(date.Weekday())`, then 0
(Sunday) becomes 7. -/
def goWeekdayIso (z : Int) : Int :=
  if goWeekday z = 0 then 7 else goWeekday z

/-- The `w` branch of `NextDate`. -/
def nextW (fuel : Nat) (now : Moment) (date : Int) :
    List (List Char) → Except NdError String
  | [] => .error .missingParam
  | p1 :: _ =>
    match parseWeekdays (splitOnChar ',' p1) with
    | none => .error .invalidParam
    | some ws =>
      match iterLoop (fun z => z + 1)
          (fun z => ws.contains (goWeekdayIso z) && timeAfter z now) fuel date with
      | none => .error .fuelExhausted
      | some r => .ok (formatDate r)

/-- The `m` branch of `NextDate`. -/
def nextM (fuel : Nat) (now : Moment) (date : Int) :
    List (List Char) → Except NdError String
  | [] => .error .missingParam
  | p1 :: rest2 =>
    match parseMonthDays (splitOnChar ',' p1) with
    | none => .error .invalidParam
    | some (ds, m1, m2) =>
      match monthsSel rest2 with
      | none => .error .invalidParam
      | some msel =>
        match iterLoop (fun z => z + 1)
            (fun z => monthOk msel (monthOf z) &&
              (monthMatch ds m1 m2 z && timeAfter z now)) fuel date with
        | none => .error .fuelExhausted
        | some r => .ok (formatDate r)

/-- `NextDate` (pkg/api/nextdate.go): empty-rule check, start-date
parse, then dispatch on the first space-separated token. -/
def NextDate (fuel : Nat) (now : Moment) (dstart rep : String) :
    Except NdError String :=
  if rep = "" then .error .emptyRule
  else
    match parseDate dstart with
    | none => .error .invalidStartDate
    | some date =>
      match splitOnChar ' ' rep.data with
      | [] => .error .unsupportedKind
      | p0 :: rest =>
        if p0 = ['d'] then nextD fuel now date rest
        else if p0 = ['y'] then nextY fuel now date
        else if p0 = ['w'] then nextW fuel now date rest
        else if p0 = ['m'] then nextM fuel now date rest
        else .error .unsupportedKind

/-- Weekday-list check of `checkRepeat`. -/
def checkList7 : List (List Char) → Except String Unit
  | [] => .ok ()
  | s :: t =>
    match atoi s with
    | none => .error "bad weekday"
    | some n =>
      if n < 1 ∨ 7 < n then .error "bad weekday" else checkList7 t

/-- Month-day-list check of `checkRepeat`: integers in [-2, 31],
never 0. -/
def checkListM : List (List Char) → Except String Unit
  | [] => .ok ()
  | s :: t =>
    match atoi s with
    | none => .error "bad month day"
    | some n =>
      if n < -2 ∨ 31 < n ∨ n = 0 then .error "bad month day" else checkListM t

/-- `checkRepeat` (pkg/api/addtask.go): the rule validator.  The empty
rule is accepted; tokens come from `strings.Fields`. -/
def checkRepeat (rep : String) : Except String Unit :=
  if rep = "" then .ok ()
  else
    match goFields rep with
    | [] => .error "bad repeat"
    | unit :: restF =>
      if unit = ['d'] then
        match restF with
        | [p1] =>
          match atoi p1 with
          | none => .error "bad d number"
          | some num => if num ≤ 0 then .error "bad d number" else .ok ()
        | _ => .error "bad d format"
      else if unit = ['w'] then
        match restF with
        | [] => .error "missing weekdays"
        | p1 :: _ => checkList7 (splitOnChar ',' p1)
      else if unit = ['m'] then
        match restF with
        | [] => .error "missing month days"
        | p1 :: _ => checkListM (splitOnChar ',' p1)
      else if unit = ['y'] then
        match restF with
        | [] => .ok ()
        | _ => .error "bad y format"
      else .error "bad unit"

/-- A task as far as the normalizer is concerned (db.Task's date and
repeat-rule fields; `repeat` is a reserved word in Lean, the field is
called `rep`). -/
structure Task where
  date : String
  rep : String
deriving DecidableEq

/-- Error outcomes of `checkDate`. -/
inductive CdError where
  | invalidDate
  | invalidRecurrence
deriving DecidableEq

/-- `checkDate` (pkg/api/addtask.go): the date normalizer.  An empty
date becomes today; a repeating task dated today or earlier moves to
the computed next occurrence; a non-repeating task never keeps a date
strictly before today.  In the source `now` is `time.Now()`; here it is
an explicit argument, and the embedded `NextDate` takes fuel. -/
def checkDate (now : Moment) (fuel : Nat) (task : Task) : Except CdError Task :=
  let date0 := if task.date = "" then formatDate now.day else task.date
  match parseDate date0 with
  | none => .error .invalidDate
  | some t =>
    if task.rep ≠ "" then
      match NextDate fuel now date0 task.rep with
      | .error _ => .error .invalidRecurrence
      | .ok next =>
        if ¬now.day < t then .ok { task with date := next }
        else .ok { task with date := date0 }
    else
      if t < now.day then .ok { task with date := formatDate now.day }
      else .ok { task with date := date0 }

/-! Facts about the comparisons and the fueled loop. -/

theorem afterNow_iff (z : Int) (now : Moment) :
    afterNow z now = true ↔ now.day ≤ z := by
  unfold afterNow
  simp [not_lt]

theorem afterNow_false_iff (z : Int) (now : Moment) :
    afterNow z now = false ↔ z < now.day := by
  unfold afterNow
  simp

theorem timeAfter_iff (z : Int) (now : Moment) :
    timeAfter z now = true ↔ now.day < z := by
  unfold timeAfter
  have h1 := now.tod_nonneg
  have h2 := now.tod_lt
  simp only [decide_eq_true_eq]
  omega

theorem add_iterate (c : Int) : ∀ (k : Nat) (z : Int),
    (fun x => x + c)^[k] z = z + c * k := by
  intro k
  induction k with
  | zero => simp
  | succ n ih =>
    intro z
    rw [Function.iterate_succ_apply, ih]
    push_cast
    ring

theorem iterLoop_first (step : Int → Int) (p : Int → Bool) :
    ∀ (fuel k : Nat) (z : Int), 1 ≤ k → k ≤ fuel → p (step^[k] z) = true →
    (∀ j : Nat, 1 ≤ j → j < k → p (step^[j] z) = false) →
    iterLoop step p fuel z = some (step^[k] z) := by
  intro fuel
  induction fuel with
  | zero =>
    intro k z h1 h2 _ _
    omega
  | succ n ih =>
    intro k z h1 h2 hp hmiss
    unfold iterLoop
    by_cases hk1 : k = 1
    · subst hk1
      rw [Function.iterate_one] at hp ⊢
      rw [if_pos hp]
    · have hpk : p (step z) = false := by
        have := hmiss 1 le_rfl (by omega)
        rwa [Function.iterate_one] at this
      rw [if_neg (by rw [hpk]; exact Bool.false_ne_true)]
      obtain ⟨k2, rfl⟩ : ∃ k2, k = k2 + 1 := ⟨k - 1, by omega⟩
      rw [Function.iterate_succ_apply] at hp ⊢
      exact ih k2 (step z) (by omega) (by omega) hp
        (fun j hj1 hj2 => by
          have := hmiss (j + 1) (by omega) (by omega)
          rwa [Function.iterate_succ_apply] at this)

theorem iterLoop_some (step : Int → Int) (p : Int → Bool) :
    ∀ (fuel : Nat) (z r : Int), iterLoop step p fuel z = some r →
    p r = true ∧ ∃ k : Nat, 1 ≤ k ∧ k ≤ fuel ∧ r = step^[k] z := by
  intro fuel
  induction fuel with
  | zero =>
    intro z r h
    exact absurd h (by unfold iterLoop; exact Option.noConfusion)
  | succ n ih =>
    intro z r h
    unfold iterLoop at h
    by_cases hp : p (step z) = true
    · rw [if_pos hp] at h
      injection h with h
      subst h
      exact ⟨hp, 1, le_rfl, by omega, (Function.iterate_one step ▸ rfl)⟩
    · rw [if_neg hp] at h
      obtain ⟨hpr, k, h1, h2, h3⟩ := ih (step z) r h
      exact ⟨hpr, k + 1, by omega, by omega, by rw [Function.iterate_succ_apply]; exact h3⟩

theorem iterLoop_reaches (step : Int → Int) (p : Int → Bool) :
    ∀ (fuel k : Nat) (z : Int), 1 ≤ k → k ≤ fuel → p (step^[k] z) = true →
    ∃ r, iterLoop step p fuel z = some r := by
  intro fuel
  induction fuel with
  | zero =>
    intro k z h1 h2 _
    omega
  | succ n ih =>
    intro k z h1 h2 hp
    unfold iterLoop
    by_cases hps : p (step z) = true
    · exact ⟨step z, by rw [if_pos hps]⟩
    · rw [if_neg hps]
      by_cases hk1 : k = 1
      · subst hk1
        rw [Function.iterate_one] at hp
        exact absurd hp hps
      · obtain ⟨k2, rfl⟩ : ∃ k2, k = k2 + 1 := ⟨k - 1, by omega⟩
        rw [Function.iterate_succ_apply] at hp
        exact ih k2 (step z) (by omega) (by omega) hp

theorem iterate_ge (step : Int → Int) (hstep : ∀ x, x + 1 ≤ step x) :
    ∀ (k : Nat) (z : Int), z + k ≤ step^[k] z := by
  intro k
  induction k with
  | zero => simp
  | succ n ih =>
    intro z
    rw [Function.iterate_succ_apply]
    have h1 := hstep z
    have h2 := ih (step z)
    push_cast at *
    omega

theorem iterate_gt (step : Int → Int) (hstep : ∀ x, x + 1 ≤ step x) (k : Nat)
    (z : Int) (hk : 1 ≤ k) : z < step^[k] z := by
  have := iterate_ge step hstep k z
  omega

/-! Reduction of `NextDate` to its branches. -/

theorem rep_ne_of_split (rep : String) (p0 : List Char) (rest : List (List Char))
    (h : splitOnChar ' ' rep.data = p0 :: rest) (hne : p0 ≠ []) : rep ≠ "" := by
  intro he
  subst he
  have h0 : splitOnChar ' ' ("" : String).data = [[]] := rfl
  rw [h0] at h
  injection h with h1 _
  exact hne h1.symm

theorem NextDate_branch (fuel : Nat) (now : Moment) (dstart rep : String) (s : Int)
    (p0 : List Char) (rest : List (List Char))
    (hrep : rep ≠ "") (hpd : parseDate dstart = some s)
    (hsplit : splitOnChar ' ' rep.data = p0 :: rest) :
    NextDate fuel now dstart rep =
      (if p0 = ['d'] then nextD fuel now s rest
       else if p0 = ['y'] then nextY fuel now s
       else if p0 = ['w'] then nextW fuel now s rest
       else if p0 = ['m'] then nextM fuel now s rest
       else .error .unsupportedKind) := by
  unfold NextDate
  rw [if_neg hrep, hpd, hsplit]

/-! Claim theorems. -/

/-- C1 (counterexample): with rule "d 1" and the start date equal to
`now`'s calendar day, `NextDate` does not return the start date
unchanged: the loop adds the interval before testing, so it returns the
next day. -/
theorem C1_counterexample :
    NextDate 5 ⟨daysFromCivil 2025 6 15, 0, by decide, by decide⟩ "20250615" "d 1" =
      .ok "20250616" ∧
    NextDate 5 ⟨daysFromCivil 2025 6 15, 0, by decide, by decide⟩ "20250615" "d 1" ≠
      .ok "20250615" := by
  constructor
  · decide
  · decide

/-- C1 (amended): for a Daily rule "d n" (1 ≤ n ≤ 400), `NextDate`
returns `start + n·k` for the smallest k ≥ 1 (not k ≥ 0: the loop steps
before testing) such that the result's calendar day is on-or-after
`now`'s calendar day. -/
theorem C1_daily (now : Moment) (fuel k : Nat) (dstart rep : String)
    (p1 : List Char) (rest : List (List Char)) (s days : Int)
    (hpd : parseDate dstart = some s)
    (hsplit : splitOnChar ' ' rep.data = ['d'] :: p1 :: rest)
    (hatoi : atoi p1 = some days)
    (hlo : 1 ≤ days) (hhi : days ≤ 400)
    (hk1 : 1 ≤ k) (hkf : k ≤ fuel)
    (hhit : afterNow (s + days * k) now = true)
    (hmiss : ∀ j : Nat, 1 ≤ j → j < k → afterNow (s + days * j) now = false) :
    NextDate fuel now dstart rep = .ok (formatDate (s + days * k)) := by
  rw [NextDate_branch fuel now dstart rep s _ _
    (rep_ne_of_split _ _ _ hsplit (by decide)) hpd hsplit]
  rw [if_pos rfl]
  simp only [nextD]
  rw [hatoi]
  dsimp only
  rw [if_neg (by omega)]
  have hit2 : (fun z => afterNow z now) ((fun z => z + days)^[k] s) = true := by
    show afterNow ((fun z => z + days)^[k] s) now = true
    rw [add_iterate]
    exact hhit
  have miss2 : ∀ j : Nat, 1 ≤ j → j < k →
      (fun z => afterNow z now) ((fun z => z + days)^[j] s) = false := by
    intro j h1 h2
    show afterNow ((fun z => z + days)^[j] s) now = false
    rw [add_iterate]
    exact hmiss j h1 h2
  rw [iterLoop_first (fun z => z + days) (fun z => afterNow z now) fuel k s hk1 hkf
    hit2 miss2]
  rw [add_iterate]

/-- C1 (witness): the spec's own worked example, now 2025-03-10,
start 20250301, rule "d 7": two steps of 7 days, landing on
2025-03-15. -/
theorem C1_daily_witness :
    parseDate "20250301" = some (daysFromCivil 2025 3 1) ∧
    NextDate 10 ⟨daysFromCivil 2025 3 10, 0, by decide, by decide⟩ "20250301" "d 7" =
      .ok (formatDate (daysFromCivil 2025 3 1 + 7 * 2)) :=
  ⟨by decide,
    C1_daily ⟨daysFromCivil 2025 3 10, 0, by decide, by decide⟩ 10 2 "20250301" "d 7"
      ['7'] [] (daysFromCivil 2025 3 1) 7
      (by decide) (by decide) (by decide) (by decide) (by decide) (by decide)
      (by decide) (by decide)
      (fun j h1 h2 => by
        have hj : j = 1 := by omega
        subst hj
        decide)⟩

/-- C6 (counterexample): with rule "y" and the start date equal to
`now`'s calendar day, `NextDate` does not return the start date (the
smallest k ≥ 0 would be 0): the loop adds a year before testing. -/
theorem C6_counterexample :
    NextDate 5 ⟨daysFromCivil 2025 6 15, 0, by decide, by decide⟩ "20250615" "y" =
      .ok "20260615" ∧
    NextDate 5 ⟨daysFromCivil 2025 6 15, 0, by decide, by decide⟩ "20250615" "y" ≠
      .ok "20250615" := by
  constructor
  · decide
  · decide

/-- C6 (amended): for the Yearly rule, `NextDate` returns the result of
adding one year k times (with Go's `AddDate` normalization, February 29
rolling to March 1 in non-leap targets) for the smallest k ≥ 1 (not
k ≥ 0) whose calendar day is on-or-after `now`'s calendar day. -/
theorem C6_yearly (now : Moment) (fuel k : Nat) (dstart rep : String)
    (rest : List (List Char)) (s : Int)
    (hpd : parseDate dstart = some s)
    (hsplit : splitOnChar ' ' rep.data = ['y'] :: rest)
    (hk1 : 1 ≤ k) (hkf : k ≤ fuel)
    (hhit : afterNow (addYears^[k] s) now = true)
    (hmiss : ∀ j : Nat, 1 ≤ j → j < k → afterNow (addYears^[j] s) now = false) :
    NextDate fuel now dstart rep = .ok (formatDate (addYears^[k] s)) := by
  rw [NextDate_branch fuel now dstart rep s _ _
    (rep_ne_of_split _ _ _ hsplit (by decide)) hpd hsplit]
  rw [if_neg (by decide), if_pos rfl]
  unfold nextY
  rw [iterLoop_first addYears (fun z => afterNow z now) fuel k s hk1 hkf hhit hmiss]

/-- C6 (witness): start 2024-02-29, now 2025-01-01: one year step lands
on 2025-03-01 (Go's normalization of February 29 + 1 year). -/
theorem C6_yearly_witness :
    parseDate "20240229" = some (daysFromCivil 2024 2 29) ∧
    NextDate 10 ⟨daysFromCivil 2025 1 1, 0, by decide, by decide⟩ "20240229" "y" =
      .ok (formatDate (addYears^[1] (daysFromCivil 2024 2 29))) :=
  ⟨by decide,
    C6_yearly ⟨daysFromCivil 2025 1 1, 0, by decide, by decide⟩ 10 1 "20240229" "y"
      [] (daysFromCivil 2024 2 29)
      (by decide) (by decide) (by decide) (by decide) (by decide)
      (fun j h1 h2 => by omega)⟩

/-- C7: for a valid Weekly rule, any date `NextDate` returns has its
ISO weekday (Sunday mapped to 7) in the configured set and is strictly
after `now` as a full moment (hence also by calendar day), and is
strictly after the start date. -/
theorem C7_weekly (now : Moment) (fuel : Nat) (dstart rep : String)
    (p1 : List Char) (rest : List (List Char)) (s : Int) (ws : List Int) (r : String)
    (hpd : parseDate dstart = some s)
    (hsplit : splitOnChar ' ' rep.data = ['w'] :: p1 :: rest)
    (hws : parseWeekdays (splitOnChar ',' p1) = some ws)
    (hok : NextDate fuel now dstart rep = .ok r) :
    ∃ z : Int, r = formatDate z ∧ ws.contains (goWeekdayIso z) = true ∧
      timeAfter z now = true ∧ now.day < z ∧ s < z := by
  rw [NextDate_branch fuel now dstart rep s _ _
    (rep_ne_of_split _ _ _ hsplit (by decide)) hpd hsplit] at hok
  rw [if_neg (by decide), if_neg (by decide), if_pos rfl] at hok
  simp only [nextW] at hok
  rw [hws] at hok
  dsimp only at hok
  cases hiter : iterLoop (fun z => z + 1)
      (fun z => ws.contains (goWeekdayIso z) && timeAfter z now) fuel s with
  | none =>
    rw [hiter] at hok
    exact absurd hok (by simp)
  | some z =>
    rw [hiter] at hok
    dsimp only at hok
    have hok2 : Except.ok (ε := NdError) (formatDate z) = Except.ok r := hok
    injection hok2 with hok2
    obtain ⟨hp, k, hk1, _, hz⟩ := iterLoop_some _ _ fuel s z hiter
    rw [add_iterate 1 k s] at hz
    have hand : (ws.contains (goWeekdayIso z) && timeAfter z now) = true := hp
    rw [Bool.and_eq_true] at hand
    exact ⟨z, hok2.symm, hand.1, hand.2, (timeAfter_iff z now).1 hand.2, by omega⟩

/-- C7 (witness): now Sunday 2025-06-15, start 20250610, rule
"w 1,5": the returned Monday 2025-06-16 satisfies all the
properties. -/
theorem C7_weekly_witness :
    ∃ z : Int, "20250616" = formatDate z ∧
      ([1, 5] : List Int).contains (goWeekdayIso z) = true ∧
      timeAfter z ⟨daysFromCivil 2025 6 15, 0, by decide, by decide⟩ = true ∧
      (⟨daysFromCivil 2025 6 15, 0, by decide, by decide⟩ : Moment).day < z ∧
      daysFromCivil 2025 6 10 < z :=
  C7_weekly ⟨daysFromCivil 2025 6 15, 0, by decide, by decide⟩ 20 "20250610" "w 1,5"
    ['1', ',', '5'] [] (daysFromCivil 2025 6 10) [1, 5] "20250616"
    (by decide) (by decide) (by decide) (by decide)

/-- C9: the error outcomes of `NextDate`: empty rule, unparseable start
date (with "d 1"), out-of-range "d 500", and an unsupported first
token. -/
theorem C9_errors :
    (∀ (now : Moment) (fuel : Nat) (dstart : String),
      NextDate fuel now dstart "" = .error .emptyRule) ∧
    (∀ (now : Moment) (fuel : Nat) (dstart : String), parseDate dstart = none →
      NextDate fuel now dstart "d 1" = .error .invalidStartDate) ∧
    (∀ (now : Moment) (fuel : Nat),
      NextDate fuel now "20250101" "d 500" = .error .invalidParam) ∧
    (∀ (now : Moment) (fuel : Nat) (rep : String) (p0 : List Char)
      (rest : List (List Char)),
      splitOnChar ' ' rep.data = p0 :: rest → rep ≠ "" →
      p0 ≠ ['d'] → p0 ≠ ['y'] → p0 ≠ ['w'] → p0 ≠ ['m'] →
      NextDate fuel now "20250101" rep = .error .unsupportedKind) := by
  refine ⟨?_, ?_, ?_, ?_⟩
  · intro now fuel dstart
    unfold NextDate
    rw [if_pos rfl]
  · intro now fuel dstart h
    unfold NextDate
    rw [if_neg (by decide), h]
  · intro now fuel
    cases hv : parseDate "20250101" with
    | none => exact absurd hv (by decide)
    | some v =>
      rw [NextDate_branch fuel now "20250101" "d 500" v ['d'] [['5', '0', '0']]
        (by decide) hv (by decide)]
      rw [if_pos rfl]
      simp only [nextD]
      rw [show atoi ['5', '0', '0'] = some 500 from by decide]
      dsimp only
      rw [if_pos (by norm_num)]
  · intro now fuel rep p0 rest hsplit hrep hd hy hw hm
    cases hv : parseDate "20250101" with
    | none => exact absurd hv (by decide)
    | some v =>
      rw [NextDate_branch fuel now "20250101" rep v p0 rest hrep hv hsplit]
      rw [if_neg hd, if_neg hy, if_neg hw, if_neg hm]

/-- C9 (witness): the four error scenarios at concrete inputs. -/
theorem C9_errors_witness :
    NextDate 3 ⟨0, 0, by decide, by decide⟩ "20250101" "" = .error .emptyRule ∧
    NextDate 3 ⟨0, 0, by decide, by decide⟩ "bad-date" "d 1" =
      .error .invalidStartDate ∧
    NextDate 3 ⟨0, 0, by decide, by decide⟩ "20250101" "d 500" =
      .error .invalidParam ∧
    NextDate 3 ⟨0, 0, by decide, by decide⟩ "20250101" "x 1" =
      .error .unsupportedKind :=
  ⟨C9_errors.1 ⟨0, 0, by decide, by decide⟩ 3 "20250101",
   C9_errors.2.1 ⟨0, 0, by decide, by decide⟩ 3 "bad-date" (by decide),
   C9_errors.2.2.1 ⟨0, 0, by decide, by decide⟩ 3,
   C9_errors.2.2.2 ⟨0, 0, by decide, by decide⟩ 3 "x 1" ['x'] [['1']]
     (by decide) (by decide) (by decide) (by decide) (by decide) (by decide)⟩

/-- C4: the validator accepts "d 500".  `checkRepeat`'s `d` case only
rejects non-integers and values ≤ 0; the upper bound 400 stated in its
own doc comment (and enforced by `NextDate`) is not checked. -/
theorem C4_d500_accepted : checkRepeat "d 500" = .ok () := by decide

/-- C5 (counterexample): the validator accepts "m 1 13" although 13 is
not a month: `checkRepeat` never examines the third token. -/
theorem C5_counterexample : checkRepeat "m 1 13" = .ok () := by decide

theorem checkListM_iff : ∀ l : List (List Char),
    checkListM l = .ok () ↔
      ∀ tok ∈ l, ∃ n, atoi tok = some n ∧ -2 ≤ n ∧ n ≤ 31 ∧ n ≠ 0 := by
  intro l
  induction l with
  | nil => simp [checkListM]
  | cons a t ih =>
    simp only [checkListM]
    cases ha : atoi a with
    | none =>
      constructor
      · intro h
        exact absurd h (by simp)
      · intro h
        obtain ⟨n, hn, _⟩ := h a (by simp)
        rw [ha] at hn
        cases hn
    | some n =>
      dsimp only
      by_cases hr : n < -2 ∨ 31 < n ∨ n = 0
      · rw [if_pos hr]
        constructor
        · intro h
          exact absurd h (by simp)
        · intro h
          obtain ⟨n2, hn2, hb1, hb2, hb3⟩ := h a (by simp)
          rw [ha] at hn2
          injection hn2 with hn2
          omega
      · rw [if_neg hr]
        rw [ih]
        constructor
        · intro h tok htok
          rcases List.mem_cons.1 htok with htok | htok
          · subst htok
            exact ⟨n, ha, by omega, by omega, by omega⟩
          · exact h tok htok
        · intro h tok htok
          exact h tok (List.mem_cons_of_mem a htok)

/-- C5 (amended): on a rule whose first field is "m", the validator
accepts exactly when every element of the comma-separated day list is
an integer in {-2, -1} ∪ [1, 31]; the third token (the month list) is
not examined at all — month-range checking happens only in the
calculator. -/
theorem C5_m_validator (rep : String) (t1 : List Char) (restF : List (List Char))
    (hf : goFields rep = ['m'] :: t1 :: restF) :
    checkRepeat rep = .ok () ↔
      ∀ tok ∈ splitOnChar ',' t1, ∃ n, atoi tok = some n ∧ -2 ≤ n ∧ n ≤ 31 ∧ n ≠ 0 := by
  have hrep : rep ≠ "" := by
    intro he
    subst he
    have h0 : goFields "" = [] := rfl
    rw [h0] at hf
    cases hf
  unfold checkRepeat
  rw [if_neg hrep, hf]
  dsimp only
  rw [if_neg (by decide), if_neg (by decide), if_pos rfl]
  exact checkListM_iff (splitOnChar ',' t1)

/-- C5 (witness): the characterization applied to "m 1,15 13" (month
13 in the third token, accepted because it is never looked at). -/
theorem C5_m_validator_witness :
    goFields "m 1,15 13" = [['m'], ['1', ',', '1', '5'], ['1', '3']] ∧
    (checkRepeat "m 1,15 13" = .ok () ↔
      ∀ tok ∈ splitOnChar ',' ['1', ',', '1', '5'],
        ∃ n, atoi tok = some n ∧ -2 ≤ n ∧ n ≤ 31 ∧ n ≠ 0) :=
  ⟨by decide,
   C5_m_validator "m 1,15 13" ['1', ',', '1', '5'] [['1', '3']] (by decide)⟩

/-- C8: for a valid Monthly rule, any date `NextDate` returns has its
month in the configured month set (every month when no list was given),
its day of month in the configured day set or equal to Go's last day of
the month (with -1) or to the day before it (with -2), and is strictly
after `now`; and the last-day computation in February yields 29 in a
leap year and 28 otherwise. -/
theorem C8_monthly (now : Moment) (fuel : Nat) (dstart rep : String)
    (p1 : List Char) (rest2 : List (List Char)) (s : Int)
    (ds : List Int) (m1 m2 : Bool) (msel : Option (List Int)) (r : String)
    (hpd : parseDate dstart = some s)
    (hsplit : splitOnChar ' ' rep.data = ['m'] :: p1 :: rest2)
    (hdays : parseMonthDays (splitOnChar ',' p1) = some (ds, m1, m2))
    (hmsel : monthsSel rest2 = some msel)
    (hok : NextDate fuel now dstart rep = .ok r) :
    (∃ z : Int, r = formatDate z ∧ monthOk msel (monthOf z) = true ∧
      (ds.contains (dayOf z) = true ∨
        (m1 = true ∧ dayOf z = lastDayGo (yearOf z) (monthOf z)) ∨
        (m2 = true ∧ dayOf z = lastDayGo (yearOf z) (monthOf z) - 1)) ∧
      timeAfter z now = true ∧ now.day < z ∧ s < z) ∧
    (∀ y : Int, lastDayGo y 2 = if isLeap y = true then 29 else 28) := by
  constructor
  · rw [NextDate_branch fuel now dstart rep s _ _
      (rep_ne_of_split _ _ _ hsplit (by decide)) hpd hsplit] at hok
    rw [if_neg (by decide), if_neg (by decide), if_neg (by decide), if_pos rfl] at hok
    simp only [nextM] at hok
    rw [hdays] at hok
    dsimp only at hok
    rw [hmsel] at hok
    dsimp only at hok
    cases hiter : iterLoop (fun z => z + 1)
        (fun z => monthOk msel (monthOf z) &&
          (monthMatch ds m1 m2 z && timeAfter z now)) fuel s with
    | none =>
      rw [hiter] at hok
      exact absurd hok (by simp)
    | some z =>
      rw [hiter] at hok
      dsimp only at hok
      have hok2 : Except.ok (ε := NdError) (formatDate z) = Except.ok r := hok
      injection hok2 with hok2
      obtain ⟨hp, k, hk1, _, hz⟩ := iterLoop_some _ _ fuel s z hiter
      rw [add_iterate 1 k s] at hz
      have hand : (monthOk msel (monthOf z) &&
          (monthMatch ds m1 m2 z && timeAfter z now)) = true := hp
      rw [Bool.and_eq_true, Bool.and_eq_true] at hand
      have hmonth := hand.1
      have hmatch := hand.2.1
      have hafter := hand.2.2
      have hmm : ds.contains (dayOf z) = true ∨
          (m1 = true ∧ dayOf z = lastDayGo (yearOf z) (monthOf z)) ∨
          (m2 = true ∧ dayOf z = lastDayGo (yearOf z) (monthOf z) - 1) := by
        unfold monthMatch at hmatch
        rw [Bool.or_eq_true, Bool.or_eq_true, Bool.and_eq_true, Bool.and_eq_true] at hmatch
        rcases hmatch with (h | h) | h
        · exact Or.inl h
        · exact Or.inr (Or.inl ⟨h.1, of_decide_eq_true h.2⟩)
        · exact Or.inr (Or.inr ⟨h.1, of_decide_eq_true h.2⟩)
      exact ⟨z, hok2.symm, hmonth, hmm, hafter, (timeAfter_iff z now).1 hafter, by omega⟩
  · intro y
    rw [lastDayGo_eq y 2 (by norm_num) (by norm_num), daysInMonth_dimL]
    unfold dimL
    rw [if_pos rfl]

/-- C8 (witness): rule "m -1", start 2024-02-10, now 2024-02-15: the
returned 2024-02-29 (leap February) satisfies all the properties. -/
theorem C8_monthly_witness :
    (∃ z : Int, "20240229" = formatDate z ∧ monthOk none (monthOf z) = true ∧
      (([] : List Int).contains (dayOf z) = true ∨
        (true = true ∧ dayOf z = lastDayGo (yearOf z) (monthOf z)) ∨
        (false = true ∧ dayOf z = lastDayGo (yearOf z) (monthOf z) - 1)) ∧
      timeAfter z ⟨daysFromCivil 2024 2 15, 0, by decide, by decide⟩ = true ∧
      (⟨daysFromCivil 2024 2 15, 0, by decide, by decide⟩ : Moment).day < z ∧
      daysFromCivil 2024 2 10 < z) ∧
    (∀ y : Int, lastDayGo y 2 = if isLeap y = true then 29 else 28) :=
  C8_monthly ⟨daysFromCivil 2024 2 15, 0, by decide, by decide⟩ 30 "20240210" "m -1"
    ['-', '1'] [] (daysFromCivil 2024 2 10) [] true false none "20240229"
    (by decide) (by decide) (by decide) (by decide) (by decide)

/-- C10: whenever `NextDate` succeeds, the returned date is strictly
later (by calendar day) than the parsed start date: every rule kind
advances the date at least one step before testing its stopping
condition. -/
theorem C10_progress (now : Moment) (fuel : Nat) (dstart rep : String) (s : Int)
    (r : String)
    (hpd : parseDate dstart = some s)
    (hok : NextDate fuel now dstart rep = .ok r) :
    ∃ z : Int, r = formatDate z ∧ s < z := by
  by_cases hrep : rep = ""
  · subst hrep
    unfold NextDate at hok
    rw [if_pos rfl] at hok
    exact absurd hok (by simp)
  · cases hsplit : splitOnChar ' ' rep.data with
    | nil =>
      unfold NextDate at hok
      rw [if_neg hrep, hpd, hsplit] at hok
      exact absurd hok (by simp)
    | cons p0 rest =>
      rw [NextDate_branch fuel now dstart rep s p0 rest hrep hpd hsplit] at hok
      by_cases hd : p0 = ['d']
      · rw [if_pos hd] at hok
        cases rest with
        | nil =>
          simp only [nextD] at hok
          exact absurd hok (by simp)
        | cons p1 rest2 =>
          simp only [nextD] at hok
          cases hat : atoi p1 with
          | none =>
            rw [hat] at hok
            exact absurd hok (by simp)
          | some days =>
            rw [hat] at hok
            dsimp only at hok
            by_cases hrange : days ≤ 0 ∨ 400 < days
            · rw [if_pos hrange] at hok
              exact absurd hok (by simp)
            · rw [if_neg hrange] at hok
              cases hiter : iterLoop (fun z => z + days) (fun z => afterNow z now)
                  fuel s with
              | none =>
                rw [hiter] at hok
                exact absurd hok (by simp)
              | some z =>
                rw [hiter] at hok
                dsimp only at hok
                have hok2 : Except.ok (ε := NdError) (formatDate z) = Except.ok r := hok
                injection hok2 with hok2
                obtain ⟨_, k, hk1, _, hz⟩ := iterLoop_some _ _ fuel s z hiter
                refine ⟨z, hok2.symm, ?_⟩
                rw [hz]
                exact iterate_gt _ (fun x => by omega) k s hk1
      · rw [if_neg hd] at hok
        by_cases hy : p0 = ['y']
        · rw [if_pos hy] at hok
          unfold nextY at hok
          cases hiter : iterLoop addYears (fun z => afterNow z now) fuel s with
          | none =>
            rw [hiter] at hok
            exact absurd hok (by simp)
          | some z =>
            rw [hiter] at hok
            dsimp only at hok
            have hok2 : Except.ok (ε := NdError) (formatDate z) = Except.ok r := hok
            injection hok2 with hok2
            obtain ⟨_, k, hk1, _, hz⟩ := iterLoop_some _ _ fuel s z hiter
            refine ⟨z, hok2.symm, ?_⟩
            rw [hz]
            exact iterate_gt _ (fun x => by have := addYears_gt x; omega) k s hk1
        · rw [if_neg hy] at hok
          by_cases hw : p0 = ['w']
          · rw [if_pos hw] at hok
            cases rest with
            | nil =>
              simp only [nextW] at hok
              exact absurd hok (by simp)
            | cons p1 rest2 =>
              simp only [nextW] at hok
              cases hws : parseWeekdays (splitOnChar ',' p1) with
              | none =>
                rw [hws] at hok
                exact absurd hok (by simp)
              | some ws =>
                rw [hws] at hok
                dsimp only at hok
                cases hiter : iterLoop (fun z => z + 1)
                    (fun z => ws.contains (goWeekdayIso z) && timeAfter z now)
                    fuel s with
                | none =>
                  rw [hiter] at hok
                  exact absurd hok (by simp)
                | some z =>
                  rw [hiter] at hok
                  dsimp only at hok
                  have hok2 : Except.ok (ε := NdError) (formatDate z) = Except.ok r :=
                    hok
                  injection hok2 with hok2
                  obtain ⟨_, k, hk1, _, hz⟩ := iterLoop_some _ _ fuel s z hiter
                  refine ⟨z, hok2.symm, ?_⟩
                  rw [hz]
                  exact iterate_gt _ (fun x => by omega) k s hk1
          · rw [if_neg hw] at hok
            by_cases hm : p0 = ['m']
            · rw [if_pos hm] at hok
              cases rest with
              | nil =>
                simp only [nextM] at hok
                exact absurd hok (by simp)
              | cons p1 rest2 =>
                simp only [nextM] at hok
                cases hdays : parseMonthDays (splitOnChar ',' p1) with
                | none =>
                  rw [hdays] at hok
                  exact absurd hok (by simp)
                | some dstriple =>
                  rw [hdays] at hok
                  obtain ⟨ds, m1, m2⟩ := dstriple
                  dsimp only at hok
                  cases hmsel : monthsSel rest2 with
                  | none =>
                    rw [hmsel] at hok
                    exact absurd hok (by simp)
                  | some msel =>
                    rw [hmsel] at hok
                    dsimp only at hok
                    cases hiter : iterLoop (fun z => z + 1)
                        (fun z => monthOk msel (monthOf z) &&
                          (monthMatch ds m1 m2 z && timeAfter z now)) fuel s with
                    | none =>
                      rw [hiter] at hok
                      exact absurd hok (by simp)
                    | some z =>
                      rw [hiter] at hok
                      dsimp only at hok
                      have hok2 : Except.ok (ε := NdError) (formatDate z) =
                          Except.ok r := hok
                      injection hok2 with hok2
                      obtain ⟨_, k, hk1, _, hz⟩ := iterLoop_some _ _ fuel s z hiter
                      refine ⟨z, hok2.symm, ?_⟩
                      rw [hz]
                      exact iterate_gt _ (fun x => by omega) k s hk1
            · rw [if_neg hm] at hok
              exact absurd hok (by simp)

/-- C10 (witness): progress at a concrete input ("d 7" from
2025-03-01). -/
theorem C10_progress_witness :
    ∃ z : Int, "20250315" = formatDate z ∧ daysFromCivil 2025 3 1 < z :=
  C10_progress ⟨daysFromCivil 2025 3 10, 0, by decide, by decide⟩ 10 "20250301"
    "d 7" (daysFromCivil 2025 3 1) "20250315" (by decide) (by decide)

/-- C3 (counterexample): the normalizer is not idempotent.  With now =
2025-06-15 (08:00) and a repeating task "d 1" dated 2025-06-14, the
first application yields 2025-06-15 (the Daily stopping condition is
inclusive of today), and a second application moves it again to
2025-06-16. -/
theorem C3_counterexample :
    checkDate ⟨daysFromCivil 2025 6 15, 28800, by decide, by decide⟩ 10
      ⟨"20250614", "d 1"⟩ = .ok ⟨"20250615", "d 1"⟩ ∧
    checkDate ⟨daysFromCivil 2025 6 15, 28800, by decide, by decide⟩ 10
      ⟨"20250615", "d 1"⟩ = .ok ⟨"20250616", "d 1"⟩ ∧
    (⟨"20250616", "d 1"⟩ : Task) ≠ ⟨"20250615", "d 1"⟩ := by
  refine ⟨?_, ?_, ?_⟩
  · decide
  · decide
  · decide

/-- C3 (amended): the normalizer is idempotent for non-repeating tasks
(whenever today's date survives a format/parse round trip), and for
repeating tasks whenever the first application's resulting date is
strictly after `now`'s calendar day and the recurrence computation on
it succeeds.  When the computed date equals `now`'s day — possible for
d/y rules, whose stopping condition is inclusive — a second application
advances the date again. -/
theorem C3_idempotent (now : Moment) (fuel : Nat) (task t1 : Task)
    (h1 : checkDate now fuel task = .ok t1)
    (hnr : task.rep = "" → parseDate (formatDate now.day) = some now.day)
    (hre : task.rep ≠ "" → ∃ z, parseDate t1.date = some z ∧ now.day < z ∧
        ∃ r2, NextDate fuel now t1.date task.rep = .ok r2) :
    checkDate now fuel t1 = .ok t1 := by
  obtain ⟨tdate, trep⟩ := task
  simp only [checkDate] at h1
  cases hp : parseDate (if tdate = "" then formatDate now.day else tdate) with
  | none =>
    rw [hp] at h1
    exact absurd h1 (by simp)
  | some t =>
    rw [hp] at h1
    dsimp only at h1
    by_cases hrep : trep = ""
    · rw [if_neg (by simp [hrep])] at h1
      have hnr2 := hnr hrep
      by_cases hlt : t < now.day
      · rw [if_pos hlt] at h1
        have h1b : Except.ok (ε := CdError)
            ({ date := formatDate now.day, rep := trep } : Task) = .ok t1 := h1
        injection h1b with h1b
        subst h1b
        have hne : formatDate now.day ≠ "" := by
          intro hh
          rw [hh, show parseDate "" = none from rfl] at hnr2
          simp at hnr2
        simp only [checkDate]
        rw [if_neg hne, hnr2]
        dsimp only
        rw [if_neg (by simp [hrep]), if_neg (by omega)]
      · rw [if_neg hlt] at h1
        have h1b : Except.ok (ε := CdError)
            ({ date := if tdate = "" then formatDate now.day else tdate,
               rep := trep } : Task) = .ok t1 := h1
        injection h1b with h1b
        subst h1b
        have hne : (if tdate = "" then formatDate now.day else tdate) ≠ "" := by
          intro hh
          rw [hh, show parseDate "" = none from rfl] at hp
          simp at hp
        simp only [checkDate]
        rw [if_neg hne, hp]
        dsimp only
        rw [if_neg (by simp [hrep]), if_neg hlt]
    · rw [if_pos hrep] at h1
      obtain ⟨z, hpz, hzgt, r2, hnd2⟩ := hre hrep
      cases hnd : NextDate fuel now (if tdate = "" then formatDate now.day else tdate)
          trep with
      | error e =>
        rw [hnd] at h1
        exact absurd h1 (by simp)
      | ok next =>
        rw [hnd] at h1
        dsimp only at h1
        have hfin : checkDate now fuel t1 = .ok t1 := by
          have hne : t1.date ≠ "" := by
            intro hh
            rw [hh, show parseDate "" = none from rfl] at hpz
            simp at hpz
          have hrep1 : t1.rep = trep := by
            by_cases hc : now.day < t
            · rw [if_neg (by simp [hc])] at h1
              have h1b : Except.ok (ε := CdError)
                  ({ date := if tdate = "" then formatDate now.day else tdate,
                     rep := trep } : Task) = .ok t1 := h1
              injection h1b with h1b
              rw [← h1b]
            · rw [if_pos (by simp [hc])] at h1
              have h1b : Except.ok (ε := CdError)
                  ({ date := next, rep := trep } : Task) = .ok t1 := h1
              injection h1b with h1b
              rw [← h1b]
          obtain ⟨t1date, t1rep⟩ := t1
          simp only at hrep1 hne hpz hnd2
          subst hrep1
          simp only [checkDate]
          rw [if_neg hne, hpz]
          dsimp only
          rw [if_pos hrep, hnd2]
          dsimp only
          rw [if_neg (by omega)]
        exact hfin

/-- C3 (witness): a repeating weekly task dated in the past is
normalized to 2025-06-16, and a second application leaves it
unchanged. -/
theorem C3_idempotent_witness :
    checkDate ⟨daysFromCivil 2025 6 15, 28800, by decide, by decide⟩ 20
      ⟨"20250610", "w 1,5"⟩ = .ok ⟨"20250616", "w 1,5"⟩ ∧
    checkDate ⟨daysFromCivil 2025 6 15, 28800, by decide, by decide⟩ 20
      ⟨"20250616", "w 1,5"⟩ = .ok ⟨"20250616", "w 1,5"⟩ :=
  ⟨by decide,
   C3_idempotent ⟨daysFromCivil 2025 6 15, 28800, by decide, by decide⟩ 20
     ⟨"20250610", "w 1,5"⟩ ⟨"20250616", "w 1,5"⟩ (by decide)
     (fun h => absurd h (by decide))
     (fun _ => ⟨daysFromCivil 2025 6 16, by decide, by decide,
       "20250620", by decide⟩)⟩

/-! Support facts for the termination analysis. -/

theorem splitPred_ne_nil (p : Char → Bool) : ∀ l : List Char, splitPred p l ≠ [] := by
  intro l
  cases l with
  | nil => simp [splitPred]
  | cons a t =>
    unfold splitPred
    by_cases hp : p a
    · rw [if_pos hp]
      simp
    · rw [if_neg hp]
      cases splitPred p t <;> simp

theorem splitOnChar_ne_nil (c : Char) (l : List Char) : splitOnChar c l ≠ [] :=
  splitPred_ne_nil _ l

theorem parseWeekdays_sound : ∀ (l : List (List Char)) (ws : List Int),
    parseWeekdays l = some ws →
    (∀ x ∈ ws, 1 ≤ x ∧ x ≤ 7) ∧ (l ≠ [] → ws ≠ []) := by
  intro l
  induction l with
  | nil =>
    intro ws h
    simp [parseWeekdays] at h
    subst h
    simp
  | cons a t ih =>
    intro ws h
    simp only [parseWeekdays] at h
    cases ha : atoi a with
    | none =>
      rw [ha] at h
      cases h
    | some n =>
      rw [ha] at h
      dsimp only at h
      by_cases hr : n < 1 ∨ 7 < n
      · rw [if_pos hr] at h
        cases h
      · rw [if_neg hr] at h
        cases hw : parseWeekdays t with
        | none =>
          rw [hw] at h
          cases h
        | some ws2 =>
          rw [hw] at h
          have h2 : some (n :: ws2) = some ws := h
          injection h2 with h2
          subst h2
          obtain ⟨hb, _⟩ := ih ws2 hw
          refine ⟨?_, by simp⟩
          intro x hx
          rcases List.mem_cons.1 hx with hx | hx
          · subst hx
            omega
          · exact hb x hx

theorem parseMonths_sound : ∀ (l : List (List Char)) (ms : List Int),
    parseMonths l = some ms →
    (∀ x ∈ ms, 1 ≤ x ∧ x ≤ 12) ∧ (l ≠ [] → ms ≠ []) := by
  intro l
  induction l with
  | nil =>
    intro ms h
    simp [parseMonths] at h
    subst h
    simp
  | cons a t ih =>
    intro ms h
    simp only [parseMonths] at h
    cases ha : atoi a with
    | none =>
      rw [ha] at h
      cases h
    | some n =>
      rw [ha] at h
      dsimp only at h
      by_cases hr : n < 1 ∨ 12 < n
      · rw [if_pos hr] at h
        cases h
      · rw [if_neg hr] at h
        cases hw : parseMonths t with
        | none =>
          rw [hw] at h
          cases h
        | some ms2 =>
          rw [hw] at h
          have h2 : some (n :: ms2) = some ms := h
          injection h2 with h2
          subst h2
          obtain ⟨hb, _⟩ := ih ms2 hw
          refine ⟨?_, by simp⟩
          intro x hx
          rcases List.mem_cons.1 hx with hx | hx
          · subst hx
            omega
          · exact hb x hx

theorem parseMonthDays_sound : ∀ (l : List (List Char)) (ds : List Int) (m1 m2 : Bool),
    parseMonthDays l = some (ds, m1, m2) → ∀ x ∈ ds, 1 ≤ x ∧ x ≤ 31 := by
  intro l
  induction l with
  | nil =>
    intro ds m1 m2 h
    simp [parseMonthDays] at h
    rw [h.1]
    simp
  | cons a t ih =>
    intro ds m1 m2 h
    simp only [parseMonthDays] at h
    cases ha : atoi a with
    | none =>
      rw [ha] at h
      cases h
    | some n =>
      rw [ha] at h
      cases hr : parseMonthDays t with
      | none =>
        rw [hr] at h
        cases h
      | some r2 =>
        rw [hr] at h
        obtain ⟨ds2, b1, b2⟩ := r2
        simp only [Option.bind] at h
        by_cases h1 : n = -1
        · rw [if_pos h1] at h
          have h2 : some (ds2, true, b2) = some (ds, m1, m2) := h
          injection h2 with h2
          intro x hx
          have hds : ds = ds2 := by
            have := congrArg Prod.fst h2
            simpa using this.symm
          rw [hds] at hx
          exact ih ds2 b1 b2 hr x hx
        · rw [if_neg h1] at h
          by_cases h2 : n = -2
          · rw [if_pos h2] at h
            have h3 : some (ds2, b1, true) = some (ds, m1, m2) := h
            injection h3 with h3
            intro x hx
            have hds : ds = ds2 := by
              have := congrArg Prod.fst h3
              simpa using this.symm
            rw [hds] at hx
            exact ih ds2 b1 b2 hr x hx
          · rw [if_neg h2] at h
            by_cases h3 : 1 ≤ n ∧ n ≤ 31
            · rw [if_pos h3] at h
              have h4 : some (n :: ds2, b1, b2) = some (ds, m1, m2) := h
              injection h4 with h4
              intro x hx
              have hds : ds = n :: ds2 := by
                have := congrArg Prod.fst h4
                simpa using this.symm
              rw [hds] at hx
              rcases List.mem_cons.1 hx with hx | hx
              · subst hx
                exact h3
              · exact ih ds2 b1 b2 hr x hx
            · rw [if_neg h3] at h
              cases h

theorem int_contains_iff (l : List Int) (x : Int) : l.contains x = true ↔ x ∈ l := by
  induction l with
  | nil => simp
  | cons a t ih =>
    simp [List.contains_cons, ih]

theorem daysInMonth_ge28 (y m : Int) : 28 ≤ daysInMonth y m := by
  have := leapN_cases y
  unfold daysInMonth
  split_ifs <;> omega

theorem daysFromCivil_400n (j : Nat) (y m d : Int) :
    daysFromCivil (y + 400 * (j : Int)) m d = daysFromCivil y m d + 146097 * (j : Int) := by
  induction j with
  | zero => simp
  | succ n ih =>
    have h1 : y + 400 * (((n : Nat) + 1 : Nat) : Int) = (y + 400 * (n : Int)) + 400 := by
      push_cast
      ring
    rw [h1, daysFromCivil_400, ih]
    push_cast
    ring

theorem goWeekdayIso_eq (z w0 : Int) (h1 : 1 ≤ w0) (h2 : w0 ≤ 7)
    (hmod : (z + 4) % 7 = w0 % 7) : goWeekdayIso z = w0 := by
  unfold goWeekdayIso goWeekday
  by_cases h7 : w0 = 7
  · subst h7
    rw [if_pos (by omega)]
  · rw [if_neg (by omega)]
    omega

theorem daysInMonth_400n (j : Nat) (y m : Int) :
    daysInMonth (y + 400 * (j : Int)) m = daysInMonth y m := by
  induction j with
  | zero => simp
  | succ n ih =>
    have h1 : y + 400 * (((n : Nat) + 1 : Nat) : Int) = (y + 400 * (n : Int)) + 400 := by
      push_cast
      ring
    rw [h1, daysInMonth_400, ih]

set_option maxRecDepth 20000 in
/-- C2 (counterexample): the rule "m 31 2" (day 31, February only) is
accepted by the validator, but `NextDate` never terminates on it:
February has no day 31, so the loop is still running after 500 one-day
steps — far beyond the claimed ~12 × 31 bound. -/
theorem C2_counterexample :
    checkRepeat "m 31 2" = .ok () ∧
    NextDate 500 ⟨daysFromCivil 2025 1 1, 0, by decide, by decide⟩ "20250101"
      "m 31 2" = .error .fuelExhausted := by
  constructor
  · decide
  · decide

/-- C2 (amended): `NextDate` terminates for every validator-accepted
rule and parseable start date, provided that a Monthly rule's day set
contains -1, -2 or a day ≤ 28 (a value occurring in every month).
Without that proviso — e.g. day 31 restricted to February — the
Monthly loop runs forever. -/
theorem C2_termination (now : Moment) (dstart rep : String) (s : Int)
    (hpd : parseDate dstart = some s)
    (hcr : checkRepeat rep = .ok ())
    (hrep : rep ≠ "")
    (hmc : ∀ (p1 : List Char) (rest2 : List (List Char)) (ds : List Int) (m1 m2 : Bool),
      splitOnChar ' ' rep.data = ['m'] :: p1 :: rest2 →
      parseMonthDays (splitOnChar ',' p1) = some (ds, m1, m2) →
      m1 = true ∨ m2 = true ∨ ∃ d0 ∈ ds, d0 ≤ 28) :
    ∃ fuel : Nat, NextDate fuel now dstart rep ≠ .error .fuelExhausted := by
  cases hsplit : splitOnChar ' ' rep.data with
  | nil =>
    refine ⟨0, ?_⟩
    unfold NextDate
    rw [if_neg hrep, hpd, hsplit]
    simp
  | cons p0 rest =>
    by_cases hd : p0 = ['d']
    · subst hd
      cases rest with
      | nil =>
        refine ⟨0, ?_⟩
        rw [NextDate_branch 0 now dstart rep s _ _ hrep hpd hsplit, if_pos rfl]
        simp [nextD]
      | cons p1 rest2 =>
        cases hat : atoi p1 with
        | none =>
          refine ⟨0, ?_⟩
          rw [NextDate_branch 0 now dstart rep s _ _ hrep hpd hsplit, if_pos rfl]
          simp only [nextD]
          rw [hat]
          simp
        | some days =>
          by_cases hrange : days ≤ 0 ∨ 400 < days
          · refine ⟨0, ?_⟩
            rw [NextDate_branch 0 now dstart rep s _ _ hrep hpd hsplit, if_pos rfl]
            simp only [nextD]
            rw [hat]
            dsimp only
            rw [if_pos hrange]
            simp
          · refine ⟨(now.day - s).toNat + 1, ?_⟩
            rw [NextDate_branch _ now dstart rep s _ _ hrep hpd hsplit, if_pos rfl]
            simp only [nextD]
            rw [hat]
            dsimp only
            rw [if_neg hrange]
            have hp : afterNow ((fun z => z + days)^[(now.day - s).toNat + 1] s)
                now = true := by
              rw [add_iterate, afterNow_iff]
              have hkk : (((now.day - s).toNat + 1 : Nat) : Int) ≤
                  days * (((now.day - s).toNat + 1 : Nat) : Int) :=
                le_mul_of_one_le_left (by positivity) (by omega)
              omega
            obtain ⟨r, hr⟩ := iterLoop_reaches (fun z => z + days)
              (fun z => afterNow z now) ((now.day - s).toNat + 1)
              ((now.day - s).toNat + 1) s (by omega) le_rfl hp
            rw [hr]
            simp
    · by_cases hy : p0 = ['y']
      · subst hy
        refine ⟨(now.day - s).toNat + 1, ?_⟩
        rw [NextDate_branch _ now dstart rep s _ _ hrep hpd hsplit,
          if_neg (by decide), if_pos rfl]
        have hp : afterNow (addYears^[(now.day - s).toNat + 1] s) now = true := by
          rw [afterNow_iff]
          have := iterate_ge addYears (fun x => by have := addYears_gt x; omega)
            ((now.day - s).toNat + 1) s
          omega
        obtain ⟨r, hr⟩ := iterLoop_reaches addYears (fun z => afterNow z now)
          ((now.day - s).toNat + 1) ((now.day - s).toNat + 1) s (by omega) le_rfl hp
        simp only [nextY]
        rw [hr]
        simp
      · by_cases hw : p0 = ['w']
        · subst hw
          cases rest with
          | nil =>
            refine ⟨0, ?_⟩
            rw [NextDate_branch 0 now dstart rep s _ _ hrep hpd hsplit,
              if_neg (by decide), if_neg (by decide), if_pos rfl]
            simp [nextW]
          | cons p1 rest2 =>
            cases hws : parseWeekdays (splitOnChar ',' p1) with
            | none =>
              refine ⟨0, ?_⟩
              rw [NextDate_branch 0 now dstart rep s _ _ hrep hpd hsplit,
                if_neg (by decide), if_neg (by decide), if_pos rfl]
              simp only [nextW]
              rw [hws]
              simp
            | some ws =>
              obtain ⟨hwb, hwne⟩ := parseWeekdays_sound _ ws hws
              cases hwsl : ws with
              | nil => exact absurd hwsl (hwne (splitOnChar_ne_nil ',' p1))
              | cons w0 ws2 =>
                have hw0 := hwb w0 (by rw [hwsl]; simp)
                obtain ⟨k, hk1, hkgt, hkmod⟩ :
                    ∃ k : Nat, 1 ≤ k ∧ now.day < s + k ∧
                      (s + (k : Int) + 4) % 7 = w0 % 7 := by
                  refine ⟨(now.day - s).toNat + 1 +
                    ((w0 - (s + ((now.day - s).toNat : Int) + 1 + 4)) % 7).toNat,
                    by omega, by push_cast; omega, by push_cast; omega⟩
                refine ⟨k, ?_⟩
                rw [NextDate_branch _ now dstart rep s _ _ hrep hpd hsplit,
                  if_neg (by decide), if_neg (by decide), if_pos rfl]
                simp only [nextW]
                rw [hws]
                dsimp only
                have hp : (ws.contains (goWeekdayIso ((fun z => z + 1)^[k] s)) &&
                    timeAfter ((fun z => z + 1)^[k] s) now) = true := by
                  rw [add_iterate]
                  have hz : s + 1 * (k : Int) = s + (k : Int) := by ring
                  rw [hz]
                  have hiso : goWeekdayIso (s + (k : Int)) = w0 :=
                    goWeekdayIso_eq _ _ hw0.1 hw0.2 hkmod
                  rw [hiso, hwsl]
                  have hc : (w0 :: ws2).contains w0 = true := by
                    rw [int_contains_iff]
                    simp
                  rw [hc, Bool.true_and]
                  exact (timeAfter_iff _ now).2 hkgt
                obtain ⟨r, hr⟩ := iterLoop_reaches (fun z => z + 1)
                  (fun z => ws.contains (goWeekdayIso z) && timeAfter z now)
                  k k s (by omega) le_rfl hp
                rw [hr]
                simp
        · by_cases hm : p0 = ['m']
          · subst hm
            cases rest with
            | nil =>
              refine ⟨0, ?_⟩
              rw [NextDate_branch 0 now dstart rep s _ _ hrep hpd hsplit,
                if_neg (by decide), if_neg (by decide), if_neg (by decide),
                if_pos rfl]
              simp [nextM]
            | cons p1 rest2 =>
              cases hdays : parseMonthDays (splitOnChar ',' p1) with
              | none =>
                refine ⟨0, ?_⟩
                rw [NextDate_branch 0 now dstart rep s _ _ hrep hpd hsplit,
                  if_neg (by decide), if_neg (by decide), if_neg (by decide),
                  if_pos rfl]
                simp only [nextM]
                rw [hdays]
                simp
              | some dtri =>
                obtain ⟨ds, m1, m2⟩ := dtri
                cases hmsel : monthsSel rest2 with
                | none =>
                  refine ⟨0, ?_⟩
                  rw [NextDate_branch 0 now dstart rep s _ _ hrep hpd hsplit,
                    if_neg (by decide), if_neg (by decide), if_neg (by decide),
                    if_pos rfl]
                  simp only [nextM]
                  rw [hdays]
                  dsimp only
                  rw [hmsel]
                  simp
                | some msel =>
                  obtain ⟨mo, hmo1, hmo2, hmok⟩ :
                      ∃ mo : Int, 1 ≤ mo ∧ mo ≤ 12 ∧ monthOk msel mo = true := by
                    cases rest2 with
                    | nil =>
                      have h0 : monthsSel ([] : List (List Char)) = some none := rfl
                      rw [h0] at hmsel
                      injection hmsel with hmsel
                      exact ⟨1, by norm_num, by norm_num, by rw [← hmsel]; rfl⟩
                    | cons p2 rest3 =>
                      cases rest3 with
                      | nil =>
                        simp only [monthsSel] at hmsel
                        cases hpm : parseMonths (splitOnChar ',' p2) with
                        | none =>
                          rw [hpm] at hmsel
                          cases hmsel
                        | some ml =>
                          rw [hpm] at hmsel
                          have h2 : some (some ml) = some msel := hmsel
                          injection h2 with h2
                          obtain ⟨hmb, hmne⟩ := parseMonths_sound _ ml hpm
                          cases hmll : ml with
                          | nil =>
                            exact absurd hmll (hmne (splitOnChar_ne_nil ',' p2))
                          | cons mo0 ml2 =>
                            have hb := hmb mo0 (by rw [hmll]; simp)
                            refine ⟨mo0, hb.1, hb.2, ?_⟩
                            rw [← h2, hmll]
                            show (mo0 :: ml2).contains mo0 = true
                            rw [int_contains_iff]
                            simp
                      | cons p3 rest4 =>
                        have h0 : monthsSel (p2 :: p3 :: rest4) = some none := rfl
                        rw [h0] at hmsel
                        injection hmsel with hmsel
                        exact ⟨1, by norm_num, by norm_num, by rw [← hmsel]; rfl⟩
                  obtain ⟨d0, hd01, hd0le, hmatch⟩ :
                      ∃ d0 : Int, 1 ≤ d0 ∧
                        (∀ j : Nat, d0 ≤ daysInMonth (2001 + 400 * (j : Int)) mo) ∧
                        (∀ j : Nat, monthMatch ds m1 m2
                          (daysFromCivil (2001 + 400 * (j : Int)) mo d0) = true) := by
                    rcases hmc p1 rest2 ds m1 m2 hsplit hdays with hc1 | hc2 | hc3
                    · subst hc1
                      refine ⟨daysInMonth 2001 mo,
                        by have := daysInMonth_ge28 2001 mo; omega,
                        fun j => by rw [daysInMonth_400n j 2001 mo], fun j => ?_⟩
                      have hrtj := rt3 (2001 + 400 * (j : Int)) mo
                        (daysInMonth 2001 mo) hmo1 hmo2
                        (by have := daysInMonth_ge28 2001 mo; omega)
                        (by rw [daysInMonth_400n j 2001 mo])
                      unfold monthMatch
                      rw [hrtj.2.2, hrtj.1, hrtj.2.1]
                      rw [lastDayGo_eq (2001 + 400 * (j : Int)) mo hmo1 hmo2]
                      rw [daysInMonth_400n j 2001 mo]
                      simp
                    · subst hc2
                      refine ⟨daysInMonth 2001 mo - 1,
                        by have := daysInMonth_ge28 2001 mo; omega,
                        fun j => by
                          rw [daysInMonth_400n j 2001 mo]
                          omega, fun j => ?_⟩
                      have hrtj := rt3 (2001 + 400 * (j : Int)) mo
                        (daysInMonth 2001 mo - 1) hmo1 hmo2
                        (by have := daysInMonth_ge28 2001 mo; omega)
                        (by rw [daysInMonth_400n j 2001 mo]; omega)
                      unfold monthMatch
                      rw [hrtj.2.2, hrtj.1, hrtj.2.1]
                      rw [lastDayGo_eq (2001 + 400 * (j : Int)) mo hmo1 hmo2]
                      rw [daysInMonth_400n j 2001 mo]
                      simp
                    · obtain ⟨d0, hd0mem, hd0le28⟩ := hc3
                      have hd0b := parseMonthDays_sound _ ds m1 m2 hdays d0 hd0mem
                      refine ⟨d0, hd0b.1,
                        fun j => by
                          have := daysInMonth_ge28 (2001 + 400 * (j : Int)) mo
                          omega, fun j => ?_⟩
                      have hrtj := rt3 (2001 + 400 * (j : Int)) mo d0 hmo1 hmo2
                        hd0b.1
                        (by have := daysInMonth_ge28 (2001 + 400 * (j : Int)) mo
                            omega)
                      unfold monthMatch
                      rw [hrtj.2.2]
                      rw [(int_contains_iff ds d0).2 hd0mem]
                      simp
                  obtain ⟨j, zc, hzc2, hgt1, hgt2⟩ :
                      ∃ (j : Nat) (zc : Int),
                        daysFromCivil (2001 + 400 * (j : Int)) mo d0 = zc ∧
                        now.day < zc ∧ s < zc := by
                    refine ⟨(now.day - daysFromCivil 2001 mo d0).toNat +
                        (s - daysFromCivil 2001 mo d0).toNat + 1,
                      daysFromCivil 2001 mo d0 + 146097 *
                        (((now.day - daysFromCivil 2001 mo d0).toNat +
                          (s - daysFromCivil 2001 mo d0).toNat + 1 : Nat) : Int),
                      ?_, ?_, ?_⟩
                    · rw [daysFromCivil_400n]
                    · push_cast
                      omega
                    · push_cast
                      omega
                  have hrt := rt3 (2001 + 400 * (j : Int)) mo d0 hmo1 hmo2 hd01
                    (hd0le j)
                  refine ⟨(zc - s).toNat, ?_⟩
                  rw [NextDate_branch _ now dstart rep s _ _ hrep hpd hsplit,
                    if_neg (by decide), if_neg (by decide), if_neg (by decide),
                    if_pos rfl]
                  simp only [nextM]
                  rw [hdays]
                  dsimp only
                  rw [hmsel]
                  dsimp only
                  have hp : (monthOk msel
                      (monthOf ((fun z => z + 1)^[(zc - s).toNat] s)) &&
                      (monthMatch ds m1 m2 ((fun z => z + 1)^[(zc - s).toNat] s) &&
                        timeAfter ((fun z => z + 1)^[(zc - s).toNat] s) now))
                      = true := by
                    rw [add_iterate]
                    have hz2 : s + 1 * (((zc - s).toNat : Nat) : Int) = zc := by
                      push_cast
                      omega
                    rw [hz2, ← hzc2]
                    rw [hrt.2.1, hmok, Bool.true_and, hmatch j, Bool.true_and]
                    rw [hzc2]
                    exact (timeAfter_iff zc now).2 hgt1
                  obtain ⟨r, hr⟩ := iterLoop_reaches (fun z => z + 1)
                    (fun z => monthOk msel (monthOf z) &&
                      (monthMatch ds m1 m2 z && timeAfter z now))
                    ((zc - s).toNat) ((zc - s).toNat) s (by omega) le_rfl hp
                  rw [hr]
                  simp
          · refine ⟨0, ?_⟩
            rw [NextDate_branch 0 now dstart rep s _ _ hrep hpd hsplit,
              if_neg hd, if_neg hy, if_neg hw, if_neg hm]
            simp

/-- C2 (witness): termination at the Monthly rule "m 15" from
2025-01-01. -/
theorem C2_termination_witness :
    ∃ fuel : Nat, NextDate fuel ⟨daysFromCivil 2025 1 1, 0, by decide, by decide⟩
      "20250101" "m 15" ≠ .error .fuelExhausted :=
  C2_termination ⟨daysFromCivil 2025 1 1, 0, by decide, by decide⟩ "20250101"
    "m 15" (daysFromCivil 2025 1 1) (by decide) (by decide) (by decide)
    (fun p1 rest2 ds m1 m2 hs hp => by
      rw [show splitOnChar ' ' ("m 15" : String).data = [['m'], ['1', '5']]
        from by decide] at hs
      injection hs with h1 h2
      injection h2 with h2a h2b
      subst h2a
      rw [show parseMonthDays (splitOnChar ',' ['1', '5']) =
        some ([15], false, false) from by decide] at hp
      injection hp with hp
      have hds : ds = [15] := by
        have := congrArg Prod.fst hp
        simpa using this.symm
      right
      right
      exact ⟨15, by rw [hds]; simp, by norm_num⟩)

end Scheduler
